import Mathlib

/-!
Verification of the core persistent-container engines of the `immutable`
library (radix-balanced trie vector, HAMT hash map, B+-tree) against its
natural-language specification.  Each Go function used by a claim is
translated into a Lean definition; theorems then settle the claims.
-/

set_option maxRecDepth 10000

namespace Vec

/-! ### Radix-balanced trie vector (`vector/list.go`)

A Go `[width]interface{}` slot holds `nil`, a `*vnode`, or an element; the
implicit union is modelled by `VSlot`.  A `vnode` is the `node` form, its
`edit` token modelled as a numeric token id (pointer identity of `*int32`).
-/

def bits : Nat := 5

def width : Nat := 1 <<< bits

def vmask : Nat := width - 1

inductive VSlot (α : Type) : Type where
  | nil : VSlot α
  | node (edit : Nat) (arr : List (VSlot α)) : VSlot α
  | val (a : α) : VSlot α

namespace VSlot

def arrOf : VSlot α → List (VSlot α)
  | .node _ arr => arr
  | _ => []

def editOf : VSlot α → Nat
  | .node e _ => e
  | _ => 0

def toVal : VSlot α → Option α
  | .val a => some a
  | _ => none

def isNil : VSlot α → Bool
  | .nil => true
  | _ => false

end VSlot

/-- fresh empty 32-slot array (`new(array)` in Go) -/
def newArray (α : Type) : List (VSlot α) := List.replicate width .nil

/-- array read; Go indexes a fixed `[32]interface{}` array -/
def aget (a : List (VSlot α)) (i : Nat) : VSlot α := a.getD i .nil

/-- array write (`array.assoc` in Go, in-place on a copy) -/
def aset (a : List (VSlot α)) (i : Nat) (v : VSlot α) : List (VSlot α) := a.set i v

/-- `vnodeNew(edit)`: fresh node with an empty array -/
def vnodeNew (α : Type) (edit : Nat) : VSlot α := .node edit (newArray α)

/-- the canonical shared `emptyNode` (its edit token is the zero atomic) -/
def emptyNode (α : Type) : VSlot α := vnodeNew α 0

/-- `newPath(edit, level, node)` from list.go -/
def newPath (edit : Nat) (level : Nat) (n : VSlot α) : VSlot α :=
  if level = 0 then n
  else .node edit (aset (newArray α) 0 (newPath edit (level - bits) n))
termination_by level
decreasing_by
  exact Nat.sub_lt (Nat.pos_of_ne_zero (by assumption)) (by decide)

/-- `isLeaf(level)` from list.go -/
def isLeafLevel (level : Nat) : Bool := level == bits

structure Vector (α : Type) where
  count : Nat
  shift : Nat
  root : VSlot α
  tail : List (VSlot α)

def emptyV (α : Type) : Vector α :=
  { count := 0, shift := bits, root := emptyNode α, tail := newArray α }

namespace Vector

variable {α : Type}

def tailOffset (v : Vector α) : Nat :=
  if v.count < width then 0 else ((v.count - 1) >>> bits) <<< bits

def roomInTail (v : Vector α) : Bool :=
  v.count - v.tailOffset < width

def overflowsRoot (v : Vector α) : Bool :=
  (v.count >>> bits) > (1 <<< v.shift)

/-- the descent loop of `arrayFor`: walk from `level` down to `0` -/
def arrayForLoop (level : Nat) (n : VSlot α) (i : Nat) : List (VSlot α) :=
  if level > 0 then
    arrayForLoop (level - bits) (aget n.arrOf ((i >>> level) &&& vmask)) i
  else n.arrOf
termination_by level
decreasing_by
  exact Nat.sub_lt (by assumption) (by decide)

/-- `arrayFor` without the bounds panic (callers check bounds) -/
def arrayFor (v : Vector α) (i : Nat) : List (VSlot α) :=
  if i ≥ v.tailOffset then v.tail else arrayForLoop v.shift v.root i

/-- `At`: bounds-checked element read (`panic` modelled as `none`) -/
def At (v : Vector α) (i : Nat) : Option α :=
  if i < v.count then (aget (v.arrayFor i) (i &&& vmask)).toVal else none

/-- `Find` with an in-range index agrees with `At`; out of range it is `(nil, false)` -/
def Find (v : Vector α) (i : Nat) : Option α × Bool :=
  if i < v.count then ((aget (v.arrayFor i) (i &&& vmask)).toVal, true) else (none, false)

/-- `doAssoc(level, n, i, value)`: clone the path and set the slot -/
def doAssoc (level : Nat) (n : VSlot α) (i : Nat) (value : α) : VSlot α :=
  if level = 0 then .node n.editOf (aset n.arrOf (i &&& vmask) (.val value))
  else
    let subidx := (i >>> level) &&& vmask
    .node n.editOf (aset n.arrOf subidx (doAssoc (level - bits) (aget n.arrOf subidx) i value))
termination_by level
decreasing_by
  exact Nat.sub_lt (Nat.pos_of_ne_zero (by assumption)) (by decide)

/-- `Assoc`: the out-of-bounds panic is modelled as `none` -/
def Assoc (v : Vector α) (i : Nat) (value : α) : Option (Vector α) :=
  if i ≥ v.count then none
  else if i ≥ v.tailOffset then
    some { v with tail := aset v.tail (i &&& vmask) (.val value) }
  else
    some { v with root := doAssoc v.shift v.root i value }

/-- `pushTail(level, parent, tailnode)`; `count` is the vector's count field -/
def pushTail (count : Nat) (rootEdit : Nat) (level : Nat) (parent tailnode : VSlot α) :
    VSlot α :=
  let subidx := ((count - 1) >>> level) &&& vmask
  if isLeafLevel level then .node parent.editOf (aset parent.arrOf subidx tailnode)
  else if h : level > bits then
    match aget parent.arrOf subidx with
    | .nil => .node parent.editOf
        (aset parent.arrOf subidx (newPath rootEdit (level - bits) tailnode))
    | child => .node parent.editOf
        (aset parent.arrOf subidx (pushTail count rootEdit (level - bits) child tailnode))
  else
    -- a level below `bits` that is not `bits` itself never occurs (shift is a
    -- positive multiple of `bits`); Go would underflow its unsigned counter here
    .nil
termination_by level
decreasing_by
  all_goals exact Nat.sub_lt (Nat.lt_of_le_of_lt (Nat.zero_le _) h) (by decide)

/-- `popTail(level, n)`; Go's `nil` return becomes `none` -/
def popTail (count : Nat) (rootEdit : Nat) (level : Nat) (n : VSlot α) :
    Option (VSlot α) :=
  let subidx := ((count - 2) >>> level) &&& vmask
  if h : level > bits then
    match popTail count rootEdit (level - bits) (aget n.arrOf subidx) with
    | none =>
      if subidx = 0 then none
      else some (.node rootEdit (aset n.arrOf subidx .nil))
    | some newChild => some (.node rootEdit (aset n.arrOf subidx newChild))
  else if subidx = 0 then none
  else some (.node rootEdit (aset n.arrOf subidx .nil))
termination_by level
decreasing_by
  exact Nat.sub_lt (Nat.lt_of_le_of_lt (Nat.zero_le _) h) (by decide)

/-- `vnodeNewFromArray(edit, a)` wraps an array as a node without copying -/
def vnodeNewFromArray (edit : Nat) (a : List (VSlot α)) : VSlot α := .node edit a

/-- `Append` on the persistent vector (total; Go never panics here) -/
def Append (v : Vector α) (value : α) : Vector α :=
  if v.roomInTail then
    { v with
      count := v.count + 1
      tail := aset v.tail (v.count - v.tailOffset) (.val value) }
  else if v.overflowsRoot then
    { count := v.count + 1
      shift := v.shift + bits
      root := .node v.root.editOf
        (aset (aset (newArray α) 0 v.root) 1
          (newPath v.root.editOf v.shift (vnodeNewFromArray v.root.editOf v.tail)))
      tail := aset (newArray α) 0 (.val value) }
  else
    { count := v.count + 1
      shift := v.shift
      root := pushTail v.count v.root.editOf v.shift v.root
        (vnodeNewFromArray v.root.editOf v.tail)
      tail := aset (newArray α) 0 (.val value) }

/-- `arrayNewFromSlice(in)`: copy a prefix into a fresh 32-slot array -/
def arrayNewFromSlice (xs : List (VSlot α)) : List (VSlot α) :=
  xs ++ List.replicate (width - xs.length) .nil

/-- `Pop` on the persistent vector; the empty-vector panic becomes `none` -/
def Pop (v : Vector α) : Option (Vector α) :=
  if v.count = 0 then none
  else if v.count = 1 then some (emptyV α)
  else if v.count - v.tailOffset > 1 then
    some { v with
      count := v.count - 1
      tail := arrayNewFromSlice (v.tail.take (v.count - v.tailOffset - 1)) }
  else
    let newTail := v.arrayFor (v.count - 2)
    let newRoot0 := popTail v.count v.root.editOf v.shift v.root
    let newRoot := newRoot0.getD (emptyNode α)
    if v.shift > bits ∧ (aget newRoot.arrOf 1).isNil then
      let root := match aget newRoot.arrOf 0 with
        | .nil => emptyNode α
        | r => r
      some { count := v.count - 1, shift := v.shift - bits, root := root, tail := newTail }
    else
      some { count := v.count - 1, shift := v.shift, root := newRoot, tail := newTail }

/-- `Length` on a non-nil persistent vector -/
def Length (v : Vector α) : Nat := v.count

end Vector

/-- `Vector.Length` on a possibly-nil `*Vector` receiver -/
def LengthPtr (v : Option (Vector α)) : Nat :=
  match v with
  | none => 0
  | some v => v.Length

/-- `Vector.Append` on a possibly-nil `*Vector` receiver: a nil receiver
appends to the empty vector -/
def AppendPtr (v : Option (Vector α)) (value : α) : Vector α :=
  match v with
  | none => (emptyV α).Append value
  | some v => v.Append value

/-! ### Arithmetic and array-access toolkit for the vector proofs -/

theorem bits_eq : bits = 5 := rfl

theorem width_eq : width = 32 := rfl

theorem and_vmask (x : Nat) : x &&& vmask = x % 32 := by
  have := Nat.and_pow_two_sub_one_eq_mod x 5
  simpa [vmask, width, bits] using this

theorem shr_eq (x n : Nat) : x >>> n = x / 2 ^ n := Nat.shiftRight_eq_div_pow x n

theorem shl_eq (x n : Nat) : x <<< n = x * 2 ^ n := Nat.shiftLeft_eq_mul_pow x n

theorem aget_aset_self {α : Type} (a : List (VSlot α)) (i : Nat) (v : VSlot α)
    (h : i < a.length) : aget (aset a i v) i = v := by
  simp [aget, aset, List.getD, List.getElem?_set_self, h]

theorem aget_aset_ne {α : Type} (a : List (VSlot α)) (i j : Nat) (v : VSlot α)
    (h : i ≠ j) : aget (aset a i v) j = aget a j := by
  simp [aget, aset, List.getD, List.getElem?_set_ne h]

theorem aset_length {α : Type} (a : List (VSlot α)) (i : Nat) (v : VSlot α) :
    (aset a i v).length = a.length := by
  simp [aset]

theorem newArray_length (α : Type) : (newArray α).length = 32 := by
  simp [newArray, width, bits]

theorem aget_newArray (α : Type) (i : Nat) : aget (newArray α) i = VSlot.nil := by
  simp only [aget, newArray, List.getD]
  rw [List.get?_eq_getElem?, List.getElem?_replicate]
  split <;> rfl

/-- the 5-bit chunk of `j` at level `l`, inside an aligned block at `base` -/
theorem chunk_in_block {base j l : Nat} (hb : base % 2 ^ (l + 5) = 0)
    (h1 : base ≤ j) (h2 : j < base + 2 ^ (l + 5)) :
    (j >>> l) &&& vmask = (j - base) / 2 ^ l := by
  rw [and_vmask, shr_eq]
  obtain ⟨k, hk⟩ := Nat.dvd_of_mod_eq_zero hb
  have hsplit : (2 : Nat) ^ (l + 5) = 2 ^ l * 32 := by
    rw [pow_add]; norm_num
  have hj : j = (j - base) + 2 ^ l * (32 * k) := by
    rw [← Nat.mul_assoc, ← hsplit, ← hk]; omega
  have hdiv : j / 2 ^ l = (j - base) / 2 ^ l + 32 * k := by
    conv_lhs => rw [hj]
    rw [Nat.add_mul_div_left _ _ (Nat.pos_pow_of_pos l (by norm_num))]
  have hlt : (j - base) / 2 ^ l < 32 := by
    apply Nat.div_lt_of_lt_mul
    calc j - base < 2 ^ (l + 5) := by omega
    _ = 2 ^ l * 32 := hsplit
  rw [hdiv, Nat.add_mul_mod_self_left, Nat.mod_eq_of_lt hlt]

/-- decompose a value mod `2^(l+5)` into its level-`l` chunk and remainder -/
theorem mod_chunk_decomp (x l : Nat) :
    x % 2 ^ (l + 5) = x % 2 ^ l + 2 ^ l * (x / 2 ^ l % 32) := by
  have hsplit : (2 : Nat) ^ (l + 5) = 2 ^ l * 32 := by
    rw [pow_add]; norm_num
  rw [hsplit, Nat.mod_mul]

theorem mod_pow_mod (x : Nat) {k l : Nat} (h : k ≤ l) :
    x % 2 ^ l % 2 ^ k = x % 2 ^ k :=
  Nat.mod_mod_of_dvd x (pow_dvd_pow 2 h)

theorem mod_lower_ne {x y l : Nat} (h : x % 2 ^ (l + 5) ≠ y % 2 ^ (l + 5))
    (hc : x / 2 ^ l % 32 = y / 2 ^ l % 32) : x % 2 ^ l ≠ y % 2 ^ l := by
  intro he
  apply h
  rw [mod_chunk_decomp, mod_chunk_decomp, he, hc]

namespace Vector

/-! ### Unfolding lemmas for the recursive trie functions -/

theorem arrayForLoop_zero {α : Type} (n : VSlot α) (j : Nat) :
    arrayForLoop 0 n j = n.arrOf := by
  rw [arrayForLoop]
  simp

theorem arrayForLoop_pos {α : Type} (l : Nat) (h : 0 < l) (n : VSlot α) (j : Nat) :
    arrayForLoop l n j = arrayForLoop (l - 5) (aget n.arrOf ((j >>> l) &&& vmask)) j := by
  conv_lhs => rw [arrayForLoop]
  simp [h, bits]

theorem doAssoc_zero {α : Type} (n : VSlot α) (i : Nat) (x : α) :
    doAssoc 0 n i x = .node n.editOf (aset n.arrOf (i &&& vmask) (.val x)) := by
  rw [doAssoc]
  simp

theorem doAssoc_pos {α : Type} (l : Nat) (h : l ≠ 0) (n : VSlot α) (i : Nat) (x : α) :
    doAssoc l n i x =
      .node n.editOf (aset n.arrOf ((i >>> l) &&& vmask)
        (doAssoc (l - 5) (aget n.arrOf ((i >>> l) &&& vmask)) i x)) := by
  conv_lhs => rw [doAssoc]
  simp [h, bits]

theorem newPath_zero {α : Type} (re : Nat) (n : VSlot α) : newPath re 0 n = n := by
  rw [newPath]
  simp

theorem newPath_pos {α : Type} (re l : Nat) (h : l ≠ 0) (n : VSlot α) :
    newPath re l n = .node re (aset (newArray α) 0 (newPath re (l - 5) n)) := by
  conv_lhs => rw [newPath]
  simp [h, bits]

theorem pushTail_leaf {α : Type} (c re : Nat) (parent tn : VSlot α) :
    pushTail c re 5 parent tn =
      .node parent.editOf (aset parent.arrOf (((c - 1) >>> 5) &&& vmask) tn) := by
  rw [pushTail]
  simp [isLeafLevel, bits]

theorem pushTail_pos {α : Type} (c re l : Nat) (h : 5 < l) (parent tn : VSlot α) :
    pushTail c re l parent tn =
      (match aget parent.arrOf (((c - 1) >>> l) &&& vmask) with
        | .nil => VSlot.node parent.editOf
            (aset parent.arrOf (((c - 1) >>> l) &&& vmask) (newPath re (l - 5) tn))
        | child => VSlot.node parent.editOf
            (aset parent.arrOf (((c - 1) >>> l) &&& vmask)
              (pushTail c re (l - 5) child tn))) := by
  conv_lhs => rw [pushTail]
  have h5 : isLeafLevel l = false := by
    simp [isLeafLevel, bits]
    omega
  simp [h5, h, bits]

theorem popTail_leaf {α : Type} (c re : Nat) (n : VSlot α) :
    popTail c re 5 n =
      (if ((c - 2) >>> 5) &&& vmask = 0 then none
       else some (.node re (aset n.arrOf (((c - 2) >>> 5) &&& vmask) .nil))) := by
  rw [popTail]
  simp [bits]

theorem popTail_pos {α : Type} (c re l : Nat) (h : 5 < l) (n : VSlot α) :
    popTail c re l n =
      (match popTail c re (l - 5) (aget n.arrOf (((c - 2) >>> l) &&& vmask)) with
        | none =>
          if ((c - 2) >>> l) &&& vmask = 0 then none
          else some (.node re (aset n.arrOf (((c - 2) >>> l) &&& vmask) .nil))
        | some newChild =>
          some (.node re (aset n.arrOf (((c - 2) >>> l) &&& vmask) newChild))) := by
  conv_lhs => rw [popTail]
  simp [h, bits]

/-! ### The tail-offset arithmetic kit -/

theorem tailOffset_eq {α : Type} (v : Vector α) :
    v.tailOffset = if v.count < 32 then 0 else (v.count - 1) / 32 * 32 := by
  rw [Vector.tailOffset, shr_eq, shl_eq]
  have h32 : (1 : Nat) <<< 5 = 32 := rfl
  norm_num [width, bits]
  rw [h32]

theorem tailOffset_mod {α : Type} (v : Vector α) : v.tailOffset % 32 = 0 := by
  rw [tailOffset_eq]
  split
  · rfl
  · simp [Nat.mul_mod_left]

theorem tailOffset_le {α : Type} (v : Vector α) (h : 0 < v.count) :
    v.tailOffset ≤ v.count - 1 := by
  rw [tailOffset_eq]
  split
  · omega
  · exact Nat.div_mul_le_self _ _

theorem count_le_tailOffset_add {α : Type} (v : Vector α) :
    v.count ≤ v.tailOffset + 32 := by
  rw [tailOffset_eq]
  split
  · omega
  · have := Nat.div_add_mod (v.count - 1) 32
    have h2 : (v.count - 1) % 32 < 32 := Nat.mod_lt _ (by norm_num)
    omega

theorem aligned_div_lt {a b : Nat} (h : a < b) (hb : b % 32 = 0) : a / 32 < b / 32 :=
  Nat.div_lt_div_of_lt_of_dvd (Nat.dvd_of_mod_eq_zero hb) h

/-! ### The trie shape invariant -/

/-- Shape of a trie subtree seen at descent level `l`, whose index block
starts at `base`: the populated indices are those below the global
tail offset `t`; children at or above `t` are `nil`.  -/
def trieSh {α : Type} : Nat → VSlot α → Nat → Nat → Prop := fun l n base t =>
  ∃ e arr, n = VSlot.node e arr ∧ arr.length = 32 ∧
    (l ≠ 0 → ∀ s, s < 32 →
      (t ≤ base + s * 2 ^ l → aget arr s = .nil) ∧
      (base + s * 2 ^ l < t → trieSh (l - 5) (aget arr s) (base + s * 2 ^ l) t))
termination_by l n => l
decreasing_by
  exact Nat.sub_lt (Nat.pos_of_ne_zero (by assumption)) (by decide)

theorem trieSh_node {α : Type} {l : Nat} {n : VSlot α} {base t : Nat}
    (h : trieSh l n base t) : ∃ e arr, n = .node e arr ∧ arr.length = 32 := by
  rw [trieSh] at h
  obtain ⟨e, arr, rfl, hlen, _⟩ := h
  exact ⟨e, arr, rfl, hlen⟩

theorem trieSh_children {α : Type} {l : Nat} {e : Nat} {arr : List (VSlot α)}
    {base t : Nat} (h : trieSh l (.node e arr) base t) (hl : l ≠ 0)
    {s : Nat} (hs : s < 32) :
    (t ≤ base + s * 2 ^ l → aget arr s = .nil) ∧
    (base + s * 2 ^ l < t → trieSh (l - 5) (aget arr s) (base + s * 2 ^ l) t) := by
  rw [trieSh] at h
  obtain ⟨e2, arr2, heq, hlen, hch⟩ := h
  cases heq
  exact hch hl s hs

theorem trieSh_intro {α : Type} {l : Nat} (e : Nat) (arr : List (VSlot α))
    {base t : Nat} (hlen : arr.length = 32)
    (hch : l ≠ 0 → ∀ s, s < 32 →
      (t ≤ base + s * 2 ^ l → aget arr s = .nil) ∧
      (base + s * 2 ^ l < t → trieSh (l - 5) (aget arr s) (base + s * 2 ^ l) t)) :
    trieSh l (.node e arr) base t := by
  rw [trieSh]
  exact ⟨e, arr, rfl, hlen, hch⟩

theorem trieSh_empty {α : Type} (l base : Nat) : trieSh l (emptyNode α) base 0 := by
  apply trieSh_intro
  · exact newArray_length α
  · intro _ s hs
    constructor
    · intro _
      exact aget_newArray α s
    · intro hlt
      omega

/-- a shape is only sensitive to how `t` compares with the child block starts -/
theorem trieSh_congr {α : Type} : ∀ (l : Nat), l % 5 = 0 → ∀ (n : VSlot α) (base t t2 : Nat),
    trieSh l n base t →
    (∀ cb, base ≤ cb → cb < base + 32 * 2 ^ l → (t ≤ cb ↔ t2 ≤ cb)) →
    trieSh l n base t2 := by
  intro l
  induction l using Nat.strong_induction_on with
  | _ l ih =>
    intro hm n base t t2 h he
    obtain ⟨e, arr, rfl, hlen⟩ := trieSh_node h
    apply trieSh_intro _ _ hlen
    intro hl s hs
    have hch := trieSh_children h hl hs
    have hl5 : 5 ≤ l := by omega
    have hpos : 0 < 2 ^ l := Nat.pos_pow_of_pos l (by norm_num)
    have h32 : (32 : Nat) * 2 ^ (l - 5) = 2 ^ l := by
      have hll : (2 : Nat) ^ l = 2 ^ (l - 5) * 2 ^ 5 := by
        rw [← pow_add]
        congr 1
        omega
      rw [hll]
      ring
    have hcb1 : base ≤ base + s * 2 ^ l := Nat.le_add_right _ _
    have hcb2 : base + s * 2 ^ l < base + 32 * 2 ^ l := by
      have := mul_lt_mul_of_pos_right hs hpos
      omega
    constructor
    · intro hle
      exact hch.1 ((he _ hcb1 hcb2).2 hle)
    · intro hlt
      have hlt0 : base + s * 2 ^ l < t := by
        by_contra hc
        exact absurd ((he _ hcb1 hcb2).1 (Nat.le_of_not_lt hc)) (by omega)
      refine ih (l - 5) (by omega) (by omega) _ _ t t2 (hch.2 hlt0) ?_
      intro cb hb1 hb2
      apply he
      · omega
      · have hs1 : s * 2 ^ l + 2 ^ l ≤ 32 * 2 ^ l := by
          calc s * 2 ^ l + 2 ^ l = (s + 1) * 2 ^ l := by ring
          _ ≤ 32 * 2 ^ l := mul_le_mul_right' (by omega) _
        omega

/-- derived reader: the slot `At` consults for index `j` below a trie node -/
def treeGet {α : Type} (l : Nat) (n : VSlot α) (j : Nat) : VSlot α :=
  aget (arrayForLoop l n j) (j &&& vmask)

theorem pow_sub5 {l : Nat} (h : 5 ≤ l) : 32 * 2 ^ (l - 5) = 2 ^ l := by
  have hll : (2 : Nat) ^ l = 2 ^ (l - 5) * 2 ^ 5 := by
    rw [← pow_add]
    congr 1
    omega
  rw [hll]
  ring

/-- facts about the chunk selected at level `l` within an aligned block -/
theorem chunk_facts {base j l : Nat} (hb : base % 2 ^ (l + 5) = 0)
    (h1 : base ≤ j) (h2 : j < base + 2 ^ (l + 5)) :
    ((j >>> l) &&& vmask) < 32 ∧
    base + ((j >>> l) &&& vmask) * 2 ^ l ≤ j ∧
    j < base + ((j >>> l) &&& vmask) * 2 ^ l + 2 ^ l ∧
    (base + ((j >>> l) &&& vmask) * 2 ^ l) % 2 ^ l = 0 := by
  rw [chunk_in_block hb h1 h2]
  have hpos : 0 < 2 ^ l := Nat.pos_pow_of_pos l (by norm_num)
  have hdm := Nat.div_add_mod (j - base) (2 ^ l)
  rw [Nat.mul_comm] at hdm
  have hmlt : (j - base) % 2 ^ l < 2 ^ l := Nat.mod_lt _ hpos
  have hsplit : (2 : Nat) ^ (l + 5) = 2 ^ l * 32 := by
    rw [pow_add]
    norm_num
  have hlt : (j - base) / 2 ^ l < 32 := by
    apply Nat.div_lt_of_lt_mul
    omega
  obtain ⟨k, hk⟩ : (2 : Nat) ^ l ∣ base :=
    Dvd.dvd.trans (pow_dvd_pow 2 (by omega)) (Nat.dvd_of_mod_eq_zero hb)
  have hbl : base % 2 ^ l = 0 := by
    rw [hk, Nat.mul_mod_right]
  refine ⟨hlt, by omega, by omega, ?_⟩
  rw [Nat.add_mul_mod_self_right, hbl]

theorem arrOf_node {α : Type} (e : Nat) (arr : List (VSlot α)) :
    (VSlot.node e arr).arrOf = arr := rfl

/-- trie descent only depends on the index's leaf number `j >>> 5` -/
theorem arrayForLoop_congr_leaf {α : Type} : ∀ (l : Nat), l % 5 = 0 →
    ∀ (n : VSlot α) (j j2 : Nat), j >>> 5 = j2 >>> 5 →
    arrayForLoop l n j = arrayForLoop l n j2 := by
  intro l
  induction l using Nat.strong_induction_on with
  | _ l ih =>
    intro hm n j j2 hj
    by_cases hl : l = 0
    · subst hl
      rw [arrayForLoop_zero, arrayForLoop_zero]
    · have hl5 : 5 ≤ l := by omega
      rw [arrayForLoop_pos l (by omega), arrayForLoop_pos l (by omega)]
      have hsplit : ∀ x : Nat, x >>> l = (x >>> 5) >>> (l - 5) := by
        intro x
        have h1 : x >>> (5 + (l - 5)) = (x >>> 5) >>> (l - 5) := Nat.shiftRight_add x 5 (l - 5)
        have h2 : 5 + (l - 5) = l := by omega
        rw [h2] at h1
        exact h1
      have hchunk : j >>> l = j2 >>> l := by
        rw [hsplit j, hsplit j2, hj]
      rw [hchunk]
      exact ih (l - 5) (by omega) (by omega) _ j j2 hj


/-- reads after `doAssoc`: the assigned index reads back the new value, and
any other index of the block reads exactly what it did before -/
theorem doAssoc_reads {α : Type} : ∀ (l : Nat), l % 5 = 0 →
    ∀ (n : VSlot α) (base t i : Nat) (x : α),
    trieSh l n base t →
    base % 2 ^ (l + 5) = 0 → base ≤ i → i < t → i < base + 2 ^ (l + 5) →
    treeGet l (doAssoc l n i x) i = .val x ∧
    (∀ j, base ≤ j → j < base + 2 ^ (l + 5) → j ≠ i →
      treeGet l (doAssoc l n i x) j = treeGet l n j) := by
  intro l
  induction l using Nat.strong_induction_on with
  | _ l ih =>
    intro hm n base t i x hsh hb hbi hit hspan
    obtain ⟨e, arr, rfl, hlen⟩ := trieSh_node hsh
    have hshr0 : ∀ y : Nat, y = (y >>> 0) := fun y => Nat.shiftRight_zero.symm
    by_cases hl : l = 0
    · subst hl
      rw [doAssoc_zero]
      have hcf := chunk_facts (l := 0) hb hbi hspan
      constructor
      · rw [treeGet, arrayForLoop_zero]
        simp only [arrOf_node]
        apply aget_aset_self
        rw [hlen]
        rw [hshr0 i]
        exact hcf.1
      · intro j hbj hjspan hji
        have hcfj := chunk_facts (l := 0) hb hbj hjspan
        rw [treeGet, treeGet, arrayForLoop_zero, arrayForLoop_zero]
        simp only [arrOf_node]
        apply aget_aset_ne
        rw [hshr0 i, hshr0 j, chunk_in_block hb hbi hspan, chunk_in_block hb hbj hjspan]
        simp only [pow_zero, Nat.div_one]
        omega
    · have hl5 : 5 ≤ l := by omega
      rw [doAssoc_pos l hl]
      have hcf := chunk_facts hb hbi hspan
      have hchild : trieSh (l - 5) (aget arr ((i >>> l) &&& vmask))
          (base + ((i >>> l) &&& vmask) * 2 ^ l) t :=
        (trieSh_children hsh hl hcf.1).2 (lt_of_le_of_lt hcf.2.1 hit)
      have hl55 : l - 5 + 5 = l := by omega
      have hbcd : (base + ((i >>> l) &&& vmask) * 2 ^ l) % 2 ^ (l - 5 + 5) = 0 := by
        rw [hl55]
        exact hcf.2.2.2
      have ihx := ih (l - 5) (by omega) (by omega) (aget arr ((i >>> l) &&& vmask))
        (base + ((i >>> l) &&& vmask) * 2 ^ l) t i x hchild hbcd hcf.2.1 hit
        (by rw [hl55]; exact hcf.2.2.1)
      constructor
      · rw [treeGet, arrayForLoop_pos l (by omega)]
        simp only [arrOf_node]
        rw [aget_aset_self arr _ _ (by rw [hlen]; exact hcf.1)]
        have h1 := ihx.1
        rw [treeGet] at h1
        exact h1
      · intro j hbj hjspan hji
        have hcfj := chunk_facts hb hbj hjspan
        rw [treeGet, treeGet, arrayForLoop_pos l (by omega), arrayForLoop_pos l (by omega)]
        simp only [arrOf_node]
        by_cases hss : (j >>> l) &&& vmask = (i >>> l) &&& vmask
        · rw [hss, aget_aset_self arr _ _ (by rw [hlen]; exact hcf.1)]
          have h2 := ihx.2 j (by rw [hss] at hcfj; exact hcfj.2.1)
            (by rw [hss] at hcfj; rw [hl55]; exact hcfj.2.2.1) hji
          rw [treeGet, treeGet] at h2
          exact h2
        · rw [aget_aset_ne _ _ _ _ (fun h => hss h.symm)]

/-- shape and reads of a fresh path built by `newPath` for the block at `t` -/
theorem newPath_sh {α : Type} : ∀ (l : Nat), l % 5 = 0 →
    ∀ (re : Nat) (tn : VSlot α) (t : Nat),
    t % 2 ^ (l + 5) = 0 →
    (∃ e2 arr2, tn = .node e2 arr2 ∧ arr2.length = 32) →
    trieSh l (newPath re l tn) t (t + 32) ∧
    (∀ j, t ≤ j → j < t + 32 → arrayForLoop l (newPath re l tn) j = tn.arrOf) := by
  intro l
  induction l using Nat.strong_induction_on with
  | _ l ih =>
    intro hm re tn t ha htn
    by_cases hl : l = 0
    · subst hl
      obtain ⟨e2, arr2, rfl, hlen⟩ := htn
      rw [newPath_zero]
      constructor
      · exact trieSh_intro _ _ hlen (fun h => absurd rfl h)
      · intro j _ _
        rw [arrayForLoop_zero]
    · have hl5 : 5 ≤ l := by omega
      have hpos : 0 < 2 ^ (l - 5) := Nat.pos_pow_of_pos _ (by norm_num)
      have h32 := pow_sub5 hl5
      have hsplit : (2 : Nat) ^ (l + 5) = 2 ^ l * 32 := by
        rw [pow_add]
        norm_num
      rw [newPath_pos re l hl]
      have hlen2 : (aset (newArray α) 0 (newPath re (l - 5) tn)).length = 32 := by
        rw [aset_length, newArray_length]
      have hget0 : aget (aset (newArray α) 0 (newPath re (l - 5) tn)) 0 =
          newPath re (l - 5) tn :=
        aget_aset_self _ _ _ (by rw [newArray_length]; norm_num)
      have hgets : ∀ s, s ≠ 0 →
          aget (aset (newArray α) 0 (newPath re (l - 5) tn)) s = .nil := by
        intro s hs
        rw [aget_aset_ne _ _ _ _ (fun h => hs h.symm), aget_newArray]
      have ha5 : t % 2 ^ (l - 5 + 5) = 0 := by
        obtain ⟨k, hk⟩ := Dvd.dvd.trans (pow_dvd_pow 2 (show l - 5 + 5 ≤ l + 5 by omega))
          (Nat.dvd_of_mod_eq_zero ha)
        rw [hk, Nat.mul_mod_right]
      have ihx := ih (l - 5) (by omega) (by omega) re tn t ha5 htn
      constructor
      · apply trieSh_intro _ _ hlen2
        intro _ s hs
        rcases Nat.eq_zero_or_pos s with rfl | hs0
        · constructor
          · intro habs
            exact absurd habs (by simp)
          · intro _
            rw [hget0]
            simpa using ihx.1
        · constructor
          · intro _
            exact hgets s (by omega)
          · intro hlt
            have : 2 ^ l ≤ s * 2 ^ l := Nat.le_mul_of_pos_left _ hs0
            omega
      · intro j hj1 hj2
        rw [arrayForLoop_pos l (by omega)]
        have hc : (j >>> l) &&& vmask = 0 := by
          rw [chunk_in_block (l := l) ha hj1 (by omega)]
          apply Nat.div_eq_of_lt
          omega
        rw [hc, arrOf_node, hget0]
        exact ihx.2 j hj1 hj2

theorem pushTail_pos_nil {α : Type} {c re l : Nat} (h : 5 < l) {parent tn : VSlot α}
    (hget : aget parent.arrOf (((c - 1) >>> l) &&& vmask) = .nil) :
    pushTail c re l parent tn =
      .node parent.editOf (aset parent.arrOf (((c - 1) >>> l) &&& vmask)
        (newPath re (l - 5) tn)) := by
  rw [pushTail_pos c re l h, hget]

theorem pushTail_pos_node {α : Type} {c re l : Nat} (h : 5 < l) {parent tn : VSlot α}
    {e2 : Nat} {arr2 : List (VSlot α)}
    (hget : aget parent.arrOf (((c - 1) >>> l) &&& vmask) = .node e2 arr2) :
    pushTail c re l parent tn =
      .node parent.editOf (aset parent.arrOf (((c - 1) >>> l) &&& vmask)
        (pushTail c re (l - 5) (.node e2 arr2) tn)) := by
  rw [pushTail_pos c re l h, hget]

/-- shape of the trie and both kinds of reads after `pushTail` installs the
full tail as the new rightmost leaf -/
theorem pushTail_master {α : Type} : ∀ (l : Nat), l % 5 = 0 → 5 ≤ l →
    ∀ (n tn : VSlot α) (base t c re : Nat),
    trieSh l n base t →
    base % 2 ^ (l + 5) = 0 → t % 32 = 0 →
    base ≤ t + 31 → t + 32 ≤ base + 2 ^ (l + 5) → c = t + 32 →
    (∃ e2 arr2, tn = .node e2 arr2 ∧ arr2.length = 32) →
    trieSh l (pushTail c re l n tn) base (t + 32) ∧
    (∀ j, base ≤ j → j < t → treeGet l (pushTail c re l n tn) j = treeGet l n j) ∧
    (∀ j, t ≤ j → j < t + 32 → arrayForLoop l (pushTail c re l n tn) j = tn.arrOf) := by
  intro l
  induction l using Nat.strong_induction_on with
  | _ l ih =>
    intro hm hl5 n tn base t c re hsh hb ht32 hbt hspan hc htn
    obtain ⟨e, arr, rfl, hlen⟩ := trieSh_node hsh
    have hpos : 0 < 2 ^ l := Nat.pos_pow_of_pos l (by norm_num)
    have hsplit : (2 : Nat) ^ (l + 5) = 2 ^ l * 32 := by
      rw [pow_add]
      norm_num
    obtain ⟨k2, hk2⟩ : (32 : Nat) ∣ 2 ^ l :=
      Dvd.dvd.trans (by norm_num : (32 : Nat) ∣ 2 ^ 5) (pow_dvd_pow 2 hl5)
    obtain ⟨kb, hkb⟩ : (32 : Nat) ∣ base :=
      Dvd.dvd.trans (by rw [hsplit, hk2]; exact ⟨k2 * 32, by ring⟩)
        (Nat.dvd_of_mod_eq_zero hb)
    have hbase_t : base ≤ t := by omega
    have hq1 : base ≤ c - 1 := by omega
    have hq2 : c - 1 < base + 2 ^ (l + 5) := by omega
    have hcf := chunk_facts hb hq1 hq2
    have hcq32 : (base + ((c - 1) >>> l &&& vmask) * 2 ^ l) % 32 = 0 := by
      rw [hkb, hk2]
      have : 32 * kb + ((c - 1) >>> l &&& vmask) * (32 * k2) =
          32 * (kb + ((c - 1) >>> l &&& vmask) * k2) := by ring
      rw [this, Nat.mul_mod_right]
    have hcq_le_t : base + ((c - 1) >>> l &&& vmask) * 2 ^ l ≤ t := by omega
    by_cases hleaf : l = 5
    · subst hleaf
      rw [pushTail_leaf]
      simp only [arrOf_node]
      have hsq : ((c - 1) >>> 5) &&& vmask = (t - base) / 32 := by
        rw [chunk_in_block hb hq1 hq2]
        have hcm : c - 1 - base = (t - base) + 31 := by omega
        rw [hcm]
        obtain ⟨kt, hkt⟩ : (32 : Nat) ∣ t - base := Nat.dvd_of_mod_eq_zero (by omega)
        rw [hkt, show (2:Nat) ^ 5 = 32 from rfl]
        rw [Nat.mul_add_div (by norm_num),
          Nat.mul_div_cancel_left _ (by norm_num : (0:Nat) < 32)]
        norm_num
      have hcq_eq : base + ((c - 1) >>> 5 &&& vmask) * 2 ^ 5 = t := by
        rw [hsq]
        obtain ⟨kt, hkt⟩ : (32 : Nat) ∣ t - base := Nat.dvd_of_mod_eq_zero (by omega)
        have hdk : (t - base) / 32 = kt := by
          rw [hkt]
          exact Nat.mul_div_cancel_left _ (by norm_num)
        rw [hdk, show (2:Nat) ^ 5 = 32 from rfl]
        omega
      refine ⟨?_, ?_, ?_⟩
      · apply trieSh_intro _ _ (by rw [aset_length, hlen])
        intro _ s hs
        by_cases hss : s = ((c - 1) >>> 5) &&& vmask
        · subst hss
          constructor
          · intro habs
            rw [show (2:Nat)^5 = 32 from rfl] at habs
            omega
          · intro _
            rw [aget_aset_self arr _ _ (by rw [hlen]; exact hcf.1)]
            obtain ⟨e2, arr2, rfl, hlen2⟩ := htn
            exact trieSh_intro _ _ hlen2 (fun hz => absurd (by norm_num) hz)
        · rw [aget_aset_ne _ _ _ _ (fun hx => hss hx.symm)]
          have hch := trieSh_children hsh (by norm_num) hs
          rcases Nat.lt_or_ge s (((c - 1) >>> 5) &&& vmask) with hlt | hge
          · have hbs : base + s * 2 ^ 5 + 32 ≤ t := by
              have : (s + 1) * 2 ^ 5 ≤ (((c - 1) >>> 5) &&& vmask) * 2 ^ 5 :=
                mul_le_mul_right' (by omega) _
              rw [show (2:Nat)^5 = 32 from rfl] at this ⊢
              omega
            constructor
            · intro habs
              omega
            · intro _
              have := hch.2 (by omega)
              -- trieSh 0 is insensitive to the t parameter
              obtain ⟨e3, arr3, he3, hlen3⟩ := trieSh_node this
              rw [he3]
              exact trieSh_intro _ _ hlen3 (fun hz => absurd rfl hz)
          · have hgt : ((c - 1) >>> 5 &&& vmask) < s := by omega
            have hbs : t + 32 ≤ base + s * 2 ^ 5 := by
              have : (((c - 1) >>> 5 &&& vmask) + 1) * 2 ^ 5 ≤ s * 2 ^ 5 :=
                mul_le_mul_right' (by omega) _
              rw [show (2:Nat)^5 = 32 from rfl] at this ⊢
              omega
            constructor
            · intro _
              exact hch.1 (by omega)
            · intro habs
              omega
      · intro j hbj hjt
        have hjspan : j < base + 2 ^ (5 + 5) := by omega
        have hcfj := chunk_facts hb hbj hjspan
        rw [treeGet, treeGet, arrayForLoop_pos 5 (by norm_num), arrayForLoop_pos 5 (by norm_num)]
        simp only [arrOf_node]
        rw [aget_aset_ne]
        intro hx
        rw [hsq, chunk_in_block hb hbj hjspan] at hx
        have : (j - base) / 2 ^ 5 < (t - base) / 32 := by
          apply Nat.div_lt_of_lt_mul
          obtain ⟨kt, hkt⟩ : (32 : Nat) ∣ t - base := Nat.dvd_of_mod_eq_zero (by omega)
          have hdk : (t - base) / 32 = kt := by
            rw [hkt]
            exact Nat.mul_div_cancel_left _ (by norm_num)
          rw [hdk, show (2:Nat)^5 = 32 from rfl]
          omega
        omega
      · intro j hjt hjt32
        have hjspan : j < base + 2 ^ (5 + 5) := by omega
        have hcfj := chunk_facts hb (by omega) hjspan
        rw [arrayForLoop_pos 5 (by norm_num)]
        simp only [arrOf_node]
        have hsj : (j >>> 5) &&& vmask = ((c - 1) >>> 5) &&& vmask := by
          rw [hsq, chunk_in_block hb (by omega) hjspan]
          obtain ⟨kt, hkt⟩ : (32 : Nat) ∣ t - base := Nat.dvd_of_mod_eq_zero (by omega)
          have hdk : (t - base) / 32 = kt := by
            rw [hkt]
            exact Nat.mul_div_cancel_left _ (by norm_num)
          rw [hdk, show (2:Nat)^5 = 32 from rfl]
          exact Nat.div_eq_of_lt_le (by omega) (by omega)
        rw [hsj, aget_aset_self arr _ _ (by rw [hlen]; exact hcf.1)]
        rw [arrayForLoop_zero]
    · have hl10 : 5 < l := by omega
      have hl55 : l - 5 + 5 = l := by omega
      have hchild := trieSh_children hsh (by omega) hcf.1
      have hq_lt : t + 31 < base + ((c - 1) >>> l &&& vmask) * 2 ^ l + 2 ^ l := by omega
      rcases Nat.lt_or_ge (base + ((c - 1) >>> l &&& vmask) * 2 ^ l) t with hpop | hnil
      · -- the child on the push path is populated: recurse
        have hchsh := hchild.2 hpop
        obtain ⟨e2, arr2, he2, hlen2⟩ := trieSh_node hchsh
        rw [he2] at hchsh
        have ihx := ih (l - 5) (by omega) (by omega) (by omega) (.node e2 arr2) tn
          (base + ((c - 1) >>> l &&& vmask) * 2 ^ l) t c re hchsh
          (by rw [hl55]; exact hcf.2.2.2) ht32 (by omega)
          (by rw [hl55]; omega) hc htn
        rw [pushTail_pos_node hl10 (by simp only [arrOf_node]; exact he2)]
        simp only [arrOf_node]
        refine ⟨?_, ?_, ?_⟩
        · apply trieSh_intro _ _ (by rw [aset_length, hlen])
          intro _ s hs
          by_cases hss : s = ((c - 1) >>> l) &&& vmask
          · subst hss
            constructor
            · intro habs
              omega
            · intro _
              rw [aget_aset_self arr _ _ (by rw [hlen]; exact hcf.1)]
              exact ihx.1
          · rw [aget_aset_ne _ _ _ _ (fun hx => hss hx.symm)]
            have hch := trieSh_children hsh (by omega) hs
            rcases Nat.lt_or_ge s (((c - 1) >>> l) &&& vmask) with hlt | hge
            · have hbs : base + s * 2 ^ l + 2 ^ l ≤
                  base + ((c - 1) >>> l &&& vmask) * 2 ^ l := by
                have h1 : (s + 1) * 2 ^ l ≤ (((c - 1) >>> l) &&& vmask) * 2 ^ l :=
                  mul_le_mul_right' (by omega) _
                have h2 : (s + 1) * 2 ^ l = s * 2 ^ l + 2 ^ l := by ring
                omega
              constructor
              · intro habs
                omega
              · intro _
                apply trieSh_congr (l - 5) (by omega) _ _ t _ (hch.2 (by omega))
                intro cb hcb1 hcb2
                rw [pow_sub5 (by omega)] at hcb2
                omega
            · have hgt : ((c - 1) >>> l &&& vmask) < s := by omega
              have hbs : t + 32 ≤ base + s * 2 ^ l := by
                have h1 : (((c - 1) >>> l &&& vmask) + 1) * 2 ^ l ≤ s * 2 ^ l :=
                  mul_le_mul_right' (by omega) _
                have h2 : (((c - 1) >>> l &&& vmask) + 1) * 2 ^ l
                    = ((c - 1) >>> l &&& vmask) * 2 ^ l + 2 ^ l := by ring
                omega
              constructor
              · intro _
                exact hch.1 (by omega)
              · intro habs
                omega
        · intro j hbj hjt
          have hjspan : j < base + 2 ^ (l + 5) := by omega
          have hcfj := chunk_facts hb hbj hjspan
          rw [treeGet, treeGet, arrayForLoop_pos l (by omega), arrayForLoop_pos l (by omega)]
          simp only [arrOf_node]
          by_cases hss : (j >>> l) &&& vmask = ((c - 1) >>> l) &&& vmask
          · rw [hss, aget_aset_self arr _ _ (by rw [hlen]; exact hcf.1), he2]
            have hj1 : base + ((c - 1) >>> l &&& vmask) * 2 ^ l ≤ j := by
              have h4 := hcfj.2.1
              rw [hss] at h4
              exact h4
            have h2 := ihx.2.1 j hj1 hjt
            rw [treeGet, treeGet] at h2
            exact h2
          · rw [aget_aset_ne _ _ _ _ (fun hx => hss hx.symm)]
        · intro j hjt hjt32
          have hjspan : j < base + 2 ^ (l + 5) := by omega
          have hcfj := chunk_facts hb (by omega) hjspan
          rw [arrayForLoop_pos l (by omega)]
          simp only [arrOf_node]
          have h5 := hcf.2.2.1
          rw [chunk_in_block hb hq1 hq2] at h5
          have hpop2 : base + (c - 1 - base) / 2 ^ l * 2 ^ l < t := by
            rw [← chunk_in_block hb hq1 hq2]
            exact hpop
          have hsj : (j >>> l) &&& vmask = ((c - 1) >>> l) &&& vmask := by
            rw [chunk_in_block hb (by omega : base ≤ j) hjspan,
              chunk_in_block hb hq1 hq2]
            apply Nat.div_eq_of_lt_le
            · omega
            · have h2 : ((c - 1 - base) / 2 ^ l + 1) * 2 ^ l
                  = (c - 1 - base) / 2 ^ l * 2 ^ l + 2 ^ l := by ring
              omega
          rw [hsj, aget_aset_self arr _ _ (by rw [hlen]; exact hcf.1)]
          exact ihx.2.2 j hjt hjt32
      · -- the child on the push path is still nil: a fresh path is built
        have hcq_eq : base + ((c - 1) >>> l &&& vmask) * 2 ^ l = t := by omega
        have hnil_get : aget arr (((c - 1) >>> l) &&& vmask) = .nil :=
          hchild.1 (by omega)
        rw [pushTail_pos_nil hl10 (by simp only [arrOf_node]; exact hnil_get)]
        simp only [arrOf_node]
        have hnp := newPath_sh (l - 5) (by omega) re tn t
          (by rw [hl55, ← hcq_eq]; exact hcf.2.2.2) htn
        refine ⟨?_, ?_, ?_⟩
        · apply trieSh_intro _ _ (by rw [aset_length, hlen])
          intro _ s hs
          by_cases hss : s = ((c - 1) >>> l) &&& vmask
          · subst hss
            constructor
            · intro habs
              omega
            · intro _
              rw [aget_aset_self arr _ _ (by rw [hlen]; exact hcf.1), hcq_eq]
              exact hnp.1
          · rw [aget_aset_ne _ _ _ _ (fun hx => hss hx.symm)]
            have hch := trieSh_children hsh (by omega) hs
            rcases Nat.lt_or_ge s (((c - 1) >>> l) &&& vmask) with hlt | hge
            · have hbs : base + s * 2 ^ l + 2 ^ l ≤ t := by
                have h1 : (s + 1) * 2 ^ l ≤ (((c - 1) >>> l) &&& vmask) * 2 ^ l :=
                  mul_le_mul_right' (by omega) _
                have h2 : (s + 1) * 2 ^ l = s * 2 ^ l + 2 ^ l := by ring
                omega
              constructor
              · intro habs
                omega
              · intro _
                apply trieSh_congr (l - 5) (by omega) _ _ t _ (hch.2 (by omega))
                intro cb hcb1 hcb2
                rw [pow_sub5 (by omega)] at hcb2
                omega
            · have hgt : ((c - 1) >>> l &&& vmask) < s := by omega
              have hbs : t + 32 ≤ base + s * 2 ^ l := by
                have h1 : (((c - 1) >>> l &&& vmask) + 1) * 2 ^ l ≤ s * 2 ^ l :=
                  mul_le_mul_right' (by omega) _
                have h2 : (((c - 1) >>> l &&& vmask) + 1) * 2 ^ l
                    = ((c - 1) >>> l &&& vmask) * 2 ^ l + 2 ^ l := by ring
                omega
              constructor
              · intro _
                exact hch.1 (by omega)
              · intro habs
                omega
        · intro j hbj hjt
          have hjspan : j < base + 2 ^ (l + 5) := by omega
          have hcfj := chunk_facts hb hbj hjspan
          rw [treeGet, treeGet, arrayForLoop_pos l (by omega), arrayForLoop_pos l (by omega)]
          simp only [arrOf_node]
          rw [aget_aset_ne]
          intro hx
          rw [chunk_in_block hb hq1 hq2, chunk_in_block hb hbj hjspan] at hx
          have hcq2 : base + (c - 1 - base) / 2 ^ l * 2 ^ l = t := by
            rw [← chunk_in_block hb hq1 hq2]
            exact hcq_eq
          have hdlt : (j - base) / 2 ^ l < (c - 1 - base) / 2 ^ l := by
            apply Nat.lt_of_mul_lt_mul_right (a := 2 ^ l)
            have h1 : (j - base) / 2 ^ l * 2 ^ l ≤ j - base := Nat.div_mul_le_self _ _
            omega
          omega
        · intro j hjt hjt32
          have hjspan : j < base + 2 ^ (l + 5) := by omega
          rw [arrayForLoop_pos l (by omega)]
          simp only [arrOf_node]
          have hcq2 : base + (c - 1 - base) / 2 ^ l * 2 ^ l = t := by
            rw [← chunk_in_block hb hq1 hq2]
            exact hcq_eq
          have hsj : (j >>> l) &&& vmask = ((c - 1) >>> l) &&& vmask := by
            rw [chunk_in_block hb (by omega : base ≤ j) hjspan,
              chunk_in_block hb hq1 hq2]
            apply Nat.div_eq_of_lt_le
            · omega
            · have h2 : ((c - 1 - base) / 2 ^ l + 1) * 2 ^ l
                  = (c - 1 - base) / 2 ^ l * 2 ^ l + 2 ^ l := by ring
              omega
          rw [hsj, aget_aset_self arr _ _ (by rw [hlen]; exact hcf.1)]
          exact hnp.2 j hjt hjt32

theorem popTail_pos_none {α : Type} {c re l : Nat} (h : 5 < l) {n : VSlot α}
    (hrec : popTail c re (l - 5) (aget n.arrOf (((c - 2) >>> l) &&& vmask)) = none) :
    popTail c re l n =
      (if ((c - 2) >>> l) &&& vmask = 0 then none
       else some (.node re (aset n.arrOf (((c - 2) >>> l) &&& vmask) .nil))) := by
  rw [popTail_pos c re l h, hrec]

theorem popTail_pos_some {α : Type} {c re l : Nat} (h : 5 < l) {n ch : VSlot α}
    (hrec : popTail c re (l - 5) (aget n.arrOf (((c - 2) >>> l) &&& vmask)) = some ch) :
    popTail c re l n =
      some (.node re (aset n.arrOf (((c - 2) >>> l) &&& vmask) ch)) := by
  rw [popTail_pos c re l h, hrec]

/-- shape and reads after `popTail` removes the rightmost leaf of the trie -/
theorem popTail_master {α : Type} : ∀ (l : Nat), l % 5 = 0 → 5 ≤ l →
    ∀ (n : VSlot α) (base t c re : Nat),
    trieSh l n base t →
    base % 2 ^ (l + 5) = 0 → t % 32 = 0 →
    base < t → t ≤ base + 2 ^ (l + 5) → c = t + 1 →
    (popTail c re l n = none ↔ t ≤ base + 32) ∧
    (∀ n2, popTail c re l n = some n2 →
      trieSh l n2 base (t - 32) ∧
      (∀ j, base ≤ j → j < t - 32 → treeGet l n2 j = treeGet l n j)) := by
  intro l
  induction l using Nat.strong_induction_on with
  | _ l ih =>
    intro hm hl5 n base t c re hsh hb ht32 hbt hspan hc
    obtain ⟨e, arr, rfl, hlen⟩ := trieSh_node hsh
    have hpos : 0 < 2 ^ l := Nat.pos_pow_of_pos l (by norm_num)
    have hsplit : (2 : Nat) ^ (l + 5) = 2 ^ l * 32 := by
      rw [pow_add]
      norm_num
    obtain ⟨k2, hk2⟩ : (32 : Nat) ∣ 2 ^ l :=
      Dvd.dvd.trans (by norm_num : (32 : Nat) ∣ 2 ^ 5) (pow_dvd_pow 2 hl5)
    obtain ⟨kb, hkb⟩ : (32 : Nat) ∣ base :=
      Dvd.dvd.trans (by rw [hsplit, hk2]; exact ⟨k2 * 32, by ring⟩)
        (Nat.dvd_of_mod_eq_zero hb)
    have hq1 : base ≤ c - 2 := by omega
    have hq2 : c - 2 < base + 2 ^ (l + 5) := by omega
    have hcf := chunk_facts hb hq1 hq2
    have hcq32 : (base + ((c - 2) >>> l &&& vmask) * 2 ^ l) % 32 = 0 := by
      rw [hkb, hk2]
      have hre : 32 * kb + ((c - 2) >>> l &&& vmask) * (32 * k2) =
          32 * (kb + ((c - 2) >>> l &&& vmask) * k2) := by ring
      rw [hre, Nat.mul_mod_right]
    have hcq_le : base + ((c - 2) >>> l &&& vmask) * 2 ^ l ≤ t - 32 := by omega
    have hcq2 : base + (c - 2 - base) / 2 ^ l * 2 ^ l =
        base + ((c - 2) >>> l &&& vmask) * 2 ^ l := by
      rw [← chunk_in_block hb hq1 hq2]
    by_cases hleaf : l = 5
    · subst hleaf
      rw [popTail_leaf]
      have hsq_eq : ((c - 2) >>> 5) &&& vmask = (t - base - 32) / 32 := by
        rw [chunk_in_block hb hq1 hq2]
        have hcm : c - 2 - base = (t - base - 32) + 31 := by omega
        rw [hcm]
        obtain ⟨kt, hkt⟩ : (32 : Nat) ∣ t - base - 32 := Nat.dvd_of_mod_eq_zero (by omega)
        rw [hkt, show (2:Nat) ^ 5 = 32 from rfl]
        rw [Nat.mul_add_div (by norm_num),
          Nat.mul_div_cancel_left _ (by norm_num : (0:Nat) < 32)]
        norm_num
      have hcq_eq : base + ((c - 2) >>> 5 &&& vmask) * 2 ^ 5 = t - 32 := by
        rw [hsq_eq]
        obtain ⟨kt, hkt⟩ : (32 : Nat) ∣ t - base - 32 := Nat.dvd_of_mod_eq_zero (by omega)
        have hdk : (t - base - 32) / 32 = kt := by
          rw [hkt]
          exact Nat.mul_div_cancel_left _ (by norm_num)
        rw [hdk, show (2:Nat) ^ 5 = 32 from rfl]
        omega
      constructor
      · constructor
        · intro hnone
          split at hnone
          · rename_i hz
            rw [hsq_eq] at hz
            have : t - base - 32 < 32 := by
              by_contra hcon
              have h1 : 1 ≤ (t - base - 32) / 32 := by
                rw [Nat.le_div_iff_mul_le (by norm_num)]
                omega
              omega
            omega
          · exact absurd hnone (by simp)
        · intro hle
          have hz : ((c - 2) >>> 5) &&& vmask = 0 := by
            rw [hsq_eq]
            apply Nat.div_eq_of_lt
            omega
          rw [hz]
          simp
      · intro n2 hsome
        split at hsome
        · exact absurd hsome (by simp)
        · rename_i hz
          have hn2 : n2 = .node re (aset arr (((c - 2) >>> 5) &&& vmask) .nil) := by
            cases hsome
            rfl
          subst hn2
          constructor
          · apply trieSh_intro _ _ (by rw [aset_length, hlen])
            intro _ s hs
            by_cases hss : s = ((c - 2) >>> 5) &&& vmask
            · subst hss
              constructor
              · intro _
                exact aget_aset_self arr _ _ (by rw [hlen]; exact hcf.1)
              · intro habs
                omega
            · rw [aget_aset_ne _ _ _ _ (fun hx => hss hx.symm)]
              have hch := trieSh_children hsh (by norm_num) hs
              rcases Nat.lt_or_ge s (((c - 2) >>> 5) &&& vmask) with hlt | hge
              · have hbs : base + s * 2 ^ 5 + 32 ≤ t - 32 := by
                  have h1 : (s + 1) * 2 ^ 5 ≤ (((c - 2) >>> 5) &&& vmask) * 2 ^ 5 :=
                    mul_le_mul_right' (by omega) _
                  have h2 : (s + 1) * 2 ^ 5 = s * 2 ^ 5 + 2 ^ 5 := by ring
                  rw [show (2:Nat) ^ 5 = 32 from rfl] at h1 h2
                  omega
                constructor
                · intro habs
                  rw [show (2:Nat) ^ 5 = 32 from rfl] at habs
                  omega
                · intro _
                  have h3 := hch.2 (by rw [show (2:Nat) ^ 5 = 32 from rfl] at hbs ⊢; omega)
                  obtain ⟨e3, arr3, he3, hlen3⟩ := trieSh_node h3
                  rw [he3]
                  exact trieSh_intro _ _ hlen3 (fun hz2 => absurd rfl hz2)
              · have hgt : ((c - 2) >>> 5 &&& vmask) < s := by omega
                have hbs : t ≤ base + s * 2 ^ 5 := by
                  have h1 : (((c - 2) >>> 5 &&& vmask) + 1) * 2 ^ 5 ≤ s * 2 ^ 5 :=
                    mul_le_mul_right' (by omega) _
                  have h2 : (((c - 2) >>> 5 &&& vmask) + 1) * 2 ^ 5
                      = ((c - 2) >>> 5 &&& vmask) * 2 ^ 5 + 2 ^ 5 := by ring
                  rw [show (2:Nat) ^ 5 = 32 from rfl] at h1 h2
                  omega
                constructor
                · intro _
                  exact hch.1 (by omega)
                · intro habs
                  omega
          · intro j hbj hjt
            have hjspan : j < base + 2 ^ (5 + 5) := by omega
            rw [treeGet, treeGet, arrayForLoop_pos 5 (by norm_num),
              arrayForLoop_pos 5 (by norm_num)]
            simp only [arrOf_node]
            rw [aget_aset_ne]
            intro hx
            rw [hsq_eq, chunk_in_block hb hbj hjspan] at hx
            have hxlt : (j - base) / 2 ^ 5 < (t - base - 32) / 32 := by
              apply Nat.div_lt_of_lt_mul
              obtain ⟨kt, hkt⟩ : (32 : Nat) ∣ t - base - 32 :=
                Nat.dvd_of_mod_eq_zero (by omega)
              have hdk : (t - base - 32) / 32 = kt := by
                rw [hkt]
                exact Nat.mul_div_cancel_left _ (by norm_num)
              rw [hdk, show (2:Nat) ^ 5 = 32 from rfl]
              omega
            omega
    · have hl10 : 5 < l := by omega
      have hl55 : l - 5 + 5 = l := by omega
      have hchild := trieSh_children hsh (by omega) hcf.1
      have hchsh := hchild.2 (by omega)
      have ihx := ih (l - 5) (by omega) (by omega) (by omega)
        (aget arr (((c - 2) >>> l) &&& vmask))
        (base + ((c - 2) >>> l &&& vmask) * 2 ^ l) t c re hchsh
        (by rw [hl55]; exact hcf.2.2.2) ht32 (by omega)
        (by rw [hl55]; omega) hc
      rcases hrec : popTail c re (l - 5) (aget arr (((c - 2) >>> l) &&& vmask)) with _ | child2
      · have hnone_t : t ≤ base + ((c - 2) >>> l &&& vmask) * 2 ^ l + 32 := ihx.1.mp hrec
        rw [popTail_pos_none hl10 (by simp only [arrOf_node]; exact hrec)]
        constructor
        · constructor
          · intro hnone
            split at hnone
            · rename_i hz
              rw [chunk_in_block hb hq1 hq2] at hz
              -- the popped leaf was the first block of this subtree
              have : base + (c - 2 - base) / 2 ^ l * 2 ^ l = base := by
                rw [hz]
                simp
              omega
            · exact absurd hnone (by simp)
          · intro hle
            have hz : ((c - 2) >>> l) &&& vmask = 0 := by
              rw [chunk_in_block hb hq1 hq2]
              apply Nat.div_eq_of_lt
              omega
            rw [hz]
            simp
        · intro n2 hsome
          split at hsome
          · exact absurd hsome (by simp)
          · rename_i hz
            have hcq_eq : base + ((c - 2) >>> l &&& vmask) * 2 ^ l = t - 32 := by
              have h1 : 2 ^ l ≤ ((c - 2) >>> l &&& vmask) * 2 ^ l :=
                Nat.le_mul_of_pos_left _ (by omega)
              omega
            have hn2 : n2 = .node re (aset arr (((c - 2) >>> l) &&& vmask) .nil) := by
              cases hsome
              rfl
            subst hn2
            constructor
            · apply trieSh_intro _ _ (by rw [aset_length, hlen])
              intro _ s hs
              by_cases hss : s = ((c - 2) >>> l) &&& vmask
              · subst hss
                constructor
                · intro _
                  exact aget_aset_self arr _ _ (by rw [hlen]; exact hcf.1)
                · intro habs
                  omega
              · rw [aget_aset_ne _ _ _ _ (fun hx => hss hx.symm)]
                have hch := trieSh_children hsh (by omega) hs
                rcases Nat.lt_or_ge s (((c - 2) >>> l) &&& vmask) with hlt | hge
                · have hbs : base + s * 2 ^ l + 2 ^ l ≤ t - 32 := by
                    have h1 : (s + 1) * 2 ^ l ≤ (((c - 2) >>> l) &&& vmask) * 2 ^ l :=
                      mul_le_mul_right' (by omega) _
                    have h2 : (s + 1) * 2 ^ l = s * 2 ^ l + 2 ^ l := by ring
                    omega
                  constructor
                  · intro habs
                    omega
                  · intro _
                    apply trieSh_congr (l - 5) (by omega) _ _ t _ (hch.2 (by omega))
                    intro cb hcb1 hcb2
                    rw [pow_sub5 (by omega)] at hcb2
                    omega
                · have hgt : ((c - 2) >>> l &&& vmask) < s := by omega
                  have hbs : t ≤ base + s * 2 ^ l := by
                    have h1 : (((c - 2) >>> l &&& vmask) + 1) * 2 ^ l ≤ s * 2 ^ l :=
                      mul_le_mul_right' (by omega) _
                    have h2 : (((c - 2) >>> l &&& vmask) + 1) * 2 ^ l
                        = ((c - 2) >>> l &&& vmask) * 2 ^ l + 2 ^ l := by ring
                    omega
                  constructor
                  · intro _
                    exact hch.1 (by omega)
                  · intro habs
                    omega
            · intro j hbj hjt
              have hjspan : j < base + 2 ^ (l + 5) := by omega
              rw [treeGet, treeGet, arrayForLoop_pos l (by omega),
                arrayForLoop_pos l (by omega)]
              simp only [arrOf_node]
              rw [aget_aset_ne]
              intro hx
              rw [chunk_in_block hb hq1 hq2, chunk_in_block hb hbj hjspan] at hx
              have hdlt : (j - base) / 2 ^ l < (c - 2 - base) / 2 ^ l := by
                apply Nat.lt_of_mul_lt_mul_right (a := 2 ^ l)
                have h1 : (j - base) / 2 ^ l * 2 ^ l ≤ j - base := Nat.div_mul_le_self _ _
                omega
              omega
      · have hsome_t : ¬ (t ≤ base + ((c - 2) >>> l &&& vmask) * 2 ^ l + 32) := by
          intro hcon
          have := ihx.1.mpr hcon
          rw [hrec] at this
          exact absurd this (by simp)
        have hih2 := ihx.2 child2 hrec
        rw [popTail_pos_some hl10 (by simp only [arrOf_node]; exact hrec)]
        constructor
        · constructor
          · intro hnone
            exact absurd hnone (by simp)
          · intro hle
            exact absurd (by omega : t ≤ base + ((c - 2) >>> l &&& vmask) * 2 ^ l + 32)
              hsome_t
        · intro n2 hsome
          have hn2 : n2 = .node re (aset arr (((c - 2) >>> l) &&& vmask) child2) := by
            cases hsome
            rfl
          subst hn2
          constructor
          · apply trieSh_intro _ _ (by rw [aset_length, hlen])
            intro _ s hs
            by_cases hss : s = ((c - 2) >>> l) &&& vmask
            · subst hss
              constructor
              · intro habs
                omega
              · intro _
                rw [aget_aset_self arr _ _ (by rw [hlen]; exact hcf.1)]
                exact hih2.1
            · rw [aget_aset_ne _ _ _ _ (fun hx => hss hx.symm)]
              have hch := trieSh_children hsh (by omega) hs
              rcases Nat.lt_or_ge s (((c - 2) >>> l) &&& vmask) with hlt | hge
              · have hbs : base + s * 2 ^ l + 2 ^ l ≤
                    base + ((c - 2) >>> l &&& vmask) * 2 ^ l := by
                  have h1 : (s + 1) * 2 ^ l ≤ (((c - 2) >>> l) &&& vmask) * 2 ^ l :=
                    mul_le_mul_right' (by omega) _
                  have h2 : (s + 1) * 2 ^ l = s * 2 ^ l + 2 ^ l := by ring
                  omega
                constructor
                · intro habs
                  omega
                · intro _
                  apply trieSh_congr (l - 5) (by omega) _ _ t _ (hch.2 (by omega))
                  intro cb hcb1 hcb2
                  rw [pow_sub5 (by omega)] at hcb2
                  omega
              · have hgt : ((c - 2) >>> l &&& vmask) < s := by omega
                have hbs : t ≤ base + s * 2 ^ l := by
                  have h1 : (((c - 2) >>> l &&& vmask) + 1) * 2 ^ l ≤ s * 2 ^ l :=
                    mul_le_mul_right' (by omega) _
                  have h2 : (((c - 2) >>> l &&& vmask) + 1) * 2 ^ l
                      = ((c - 2) >>> l &&& vmask) * 2 ^ l + 2 ^ l := by ring
                  omega
                constructor
                · intro _
                  exact hch.1 (by omega)
                · intro habs
                  omega
          · intro j hbj hjt
            have hjspan : j < base + 2 ^ (l + 5) := by omega
            have hcfj := chunk_facts hb hbj hjspan
            rw [treeGet, treeGet, arrayForLoop_pos l (by omega),
              arrayForLoop_pos l (by omega)]
            simp only [arrOf_node]
            by_cases hss : (j >>> l) &&& vmask = ((c - 2) >>> l) &&& vmask
            · rw [hss, aget_aset_self arr _ _ (by rw [hlen]; exact hcf.1)]
              have hj1 : base + ((c - 2) >>> l &&& vmask) * 2 ^ l ≤ j := by
                have h4 := hcfj.2.1
                rw [hss] at h4
                exact h4
              have h2 := hih2.2 j hj1 hjt
              rw [treeGet, treeGet] at h2
              exact h2
            · rw [aget_aset_ne _ _ _ _ (fun hx => hss hx.symm)]

/-! ### Well-formedness of a persistent vector and `At`-level glue -/

/-- invariants every reachable persistent vector satisfies -/
structure WF {α : Type} (v : Vector α) : Prop where
  shift_ge : 5 ≤ v.shift
  shift_mod : v.shift % 5 = 0
  tail_len : v.tail.length = 32
  cap : v.tailOffset ≤ 2 ^ (v.shift + 5)
  sh : trieSh v.shift v.root 0 v.tailOffset

theorem tailOffset_count_eq {α β : Type} {v : Vector α} {w : Vector β}
    (h : w.count = v.count) : w.tailOffset = v.tailOffset := by
  rw [tailOffset_eq, tailOffset_eq, h]

/-- for a non-empty vector the branch in `tailOffset` is redundant -/
theorem tailOffset_eq1 {α : Type} {v : Vector α} (h : 1 ≤ v.count) :
    v.tailOffset = (v.count - 1) / 32 * 32 := by
  rw [tailOffset_eq]
  split
  · rw [Nat.div_eq_of_lt (by omega)]
  · rfl

theorem tailOffset_succ {α β : Type} (v : Vector α) (w : Vector β)
    (hc : w.count = v.count + 1) (h1 : 1 ≤ v.count)
    (hroom : v.count - v.tailOffset < 32) : w.tailOffset = v.tailOffset := by
  rw [tailOffset_eq1 (by omega), tailOffset_eq1 h1, hc]
  have hq := Nat.div_add_mod (v.count - 1) 32
  have hr : (v.count - 1) % 32 < 32 := Nat.mod_lt _ (by norm_num)
  rw [tailOffset_eq1 h1] at hroom
  congr 1
  apply Nat.div_eq_of_lt_le
  · omega
  · have hx : ((v.count - 1) / 32 + 1) * 32 = (v.count - 1) / 32 * 32 + 32 := by ring
    omega

/-- a full tail means the count sits exactly 32 past the tail offset -/
theorem full_tail_char {α : Type} (v : Vector α) (h1 : 1 ≤ v.count)
    (hfull : ¬ v.count - v.tailOffset < 32) :
    v.count = v.tailOffset + 32 ∧ v.count % 32 = 0 ∧ 32 ≤ v.count := by
  have hq := Nat.div_add_mod (v.count - 1) 32
  have hr : (v.count - 1) % 32 < 32 := Nat.mod_lt _ (by norm_num)
  rw [tailOffset_eq1 h1] at hfull ⊢
  have hcount : v.count = (v.count - 1) / 32 * 32 + ((v.count - 1) % 32 + 1) := by omega
  have h31 : (v.count - 1) % 32 = 31 := by omega
  refine ⟨by omega, ?_, by omega⟩
  rw [hcount, h31, Nat.add_comm ((v.count - 1) / 32 * 32), Nat.add_mul_mod_self_right]

theorem tailOffset_of_multiple {α : Type} {v : Vector α} {m : Nat}
    (hc : v.count = m + 1) (hm : m % 32 = 0) (h32 : 32 ≤ m) :
    v.tailOffset = m := by
  rw [tailOffset_eq1 (by omega), hc]
  simp only [Nat.add_sub_cancel]
  exact Nat.div_mul_cancel (Nat.dvd_of_mod_eq_zero hm)

/-- `overflowsRoot` under a full tail means the trie is exactly full -/
theorem overflow_char {α : Type} (v : Vector α) (hWF : WF v)
    (hc : v.count = v.tailOffset + 32) :
    (v.overflowsRoot = true ↔ v.tailOffset = 2 ^ (v.shift + 5)) := by
  rw [Vector.overflowsRoot, shr_eq, shl_eq]
  simp only [bits]
  have hto := tailOffset_mod v
  obtain ⟨k, hk⟩ := Nat.dvd_of_mod_eq_zero hto
  have hcap := hWF.cap
  have hsplit : (2 : Nat) ^ (v.shift + 5) = 2 ^ v.shift * 32 := by
    rw [pow_add]
    norm_num
  constructor
  · intro hov
    rw [decide_eq_true_iff] at hov
    have hdiv : v.count / 2 ^ 5 = k + 1 := by
      rw [hc, hk]
      rw [show (2:Nat) ^ 5 = 32 from rfl, Nat.mul_comm 32 k]
      rw [show k * 32 + 32 = (k + 1) * 32 by ring]
      exact Nat.mul_div_cancel _ (by norm_num)
    rw [hdiv, Nat.one_mul] at hov
    have : 2 ^ v.shift ≤ k := by omega
    have h2 : 2 ^ v.shift * 32 ≤ k * 32 := mul_le_mul_right' this _
    omega
  · intro heq
    rw [decide_eq_true_iff]
    have hdiv : v.count / 2 ^ 5 = k + 1 := by
      rw [hc, hk]
      rw [show (2:Nat) ^ 5 = 32 from rfl, Nat.mul_comm 32 k]
      rw [show k * 32 + 32 = (k + 1) * 32 by ring]
      exact Nat.mul_div_cancel _ (by norm_num)
    rw [hdiv, Nat.one_mul]
    have hkk : k = 2 ^ v.shift := by
      have hxx : 32 * k = 2 ^ v.shift * 32 := by
        rw [← hk, heq, hsplit]
      omega
    omega

theorem mod32_range {a x : Nat} (ha : a % 32 = 0) (h1 : a ≤ x) (h2 : x < a + 32) :
    x % 32 = x - a := by
  obtain ⟨k, hk⟩ := Nat.dvd_of_mod_eq_zero ha
  have hx : x = 32 * k + (x - a) := by omega
  calc x % 32 = (32 * k + (x - a)) % 32 := by rw [← hx]
  _ = (x - a) % 32 := Nat.mul_add_mod _ _ _
  _ = x - a := Nat.mod_eq_of_lt (by omega)

theorem At_lt {α : Type} {v : Vector α} {i : Nat} (h : i < v.count) :
    v.At i = (aget (v.arrayFor i) (i % 32)).toVal := by
  rw [Vector.At, if_pos h, and_vmask]

theorem At_ge {α : Type} {v : Vector α} {i : Nat} (h : ¬ i < v.count) :
    v.At i = none := by
  rw [Vector.At, if_neg h]

theorem arrayFor_tail {α : Type} {v : Vector α} {i : Nat} (h : v.tailOffset ≤ i) :
    v.arrayFor i = v.tail := by
  rw [Vector.arrayFor, if_pos h]

theorem arrayFor_trie {α : Type} {v : Vector α} {i : Nat} (h : ¬ v.tailOffset ≤ i) :
    v.arrayFor i = arrayForLoop v.shift v.root i := by
  rw [Vector.arrayFor, if_neg h]

theorem aget_append_lt {α : Type} {xs ys : List (VSlot α)} {k : Nat}
    (h : k < xs.length) : aget (xs ++ ys) k = aget xs k := by
  simp [aget, List.getD, List.getElem?_append, h]

theorem aget_take_lt {α : Type} {xs : List (VSlot α)} {k n : Nat}
    (h : k < n) : aget (xs.take n) k = aget xs k := by
  simp [aget, List.getD, List.getElem?_take, h]

/-- `At` unfolded into its two read paths -/
theorem At_unfold {α : Type} (v : Vector α) (j : Nat) :
    v.At j = (if j < v.count then
      (if v.tailOffset ≤ j then (aget v.tail (j % 32)).toVal
       else (aget (arrayForLoop v.shift v.root j) (j % 32)).toVal) else none) := by
  rw [Vector.At, and_vmask, Vector.arrayFor]
  by_cases h1 : j < v.count
  · rw [if_pos h1, if_pos h1]
    by_cases h2 : v.tailOffset ≤ j
    · rw [if_pos h2, if_pos h2]
    · rw [if_neg h2, if_neg h2]
  · rw [if_neg h1, if_neg h1]

/-- reads after `Assoc` on a well-formed vector: the updated index reads the
new value, every other index is untouched -/
theorem Assoc_reads {α : Type} (v : Vector α) (hWF : WF v) (i : Nat) (x : α)
    (hi : i < v.count) :
    ∃ v2, v.Assoc i x = some v2 ∧ v2.count = v.count ∧
      v2.At i = some x ∧ (∀ j, j ≠ i → v2.At j = v.At j) := by
  have hcle := count_le_tailOffset_add v
  have htmod := tailOffset_mod v
  rw [Vector.Assoc, if_neg (by omega)]
  rcases Nat.lt_or_ge i v.tailOffset with htr | htl
  · rw [if_neg (by omega)]
    have ht2 : ({ v with root := doAssoc v.shift v.root i x } : Vector α).tailOffset
        = v.tailOffset := tailOffset_count_eq rfl
    have hspan0 : (0 : Nat) % 2 ^ (v.shift + 5) = 0 := Nat.zero_mod _
    have hdr := doAssoc_reads v.shift hWF.shift_mod v.root 0 v.tailOffset i x hWF.sh
      hspan0 (Nat.zero_le _) htr (by
        have := hWF.cap
        omega)
    refine ⟨_, rfl, rfl, ?_, ?_⟩
    · rw [At_unfold]
      dsimp only
      rw [ht2, if_pos hi, if_neg (by omega)]
      have h1 := hdr.1
      rw [treeGet, and_vmask] at h1
      rw [h1]
      rfl
    · intro j hji
      rw [At_unfold, At_unfold]
      dsimp only
      rw [ht2]
      by_cases hjc : j < v.count
      · rw [if_pos hjc, if_pos hjc]
        by_cases hjt : v.tailOffset ≤ j
        · rw [if_pos hjt, if_pos hjt]
        · rw [if_neg hjt, if_neg hjt]
          have h2 := hdr.2 j (Nat.zero_le _) (by
            have := hWF.cap
            omega) hji
          rw [treeGet, treeGet, and_vmask] at h2
          rw [h2]
      · rw [if_neg hjc, if_neg hjc]
  · rw [if_pos (by omega)]
    have ht2 : ({ v with tail := aset v.tail (i &&& vmask) (.val x) } : Vector α).tailOffset
        = v.tailOffset := tailOffset_count_eq rfl
    refine ⟨_, rfl, rfl, ?_, ?_⟩
    · rw [At_unfold]
      dsimp only
      rw [ht2, if_pos hi, if_pos htl, and_vmask]
      rw [aget_aset_self v.tail _ _ (by
        rw [hWF.tail_len]
        exact Nat.mod_lt _ (by norm_num))]
      rfl
    · intro j hji
      rw [At_unfold, At_unfold]
      dsimp only
      rw [ht2]
      by_cases hjc : j < v.count
      · rw [if_pos hjc, if_pos hjc]
        by_cases hjt : v.tailOffset ≤ j
        · rw [if_pos hjt, if_pos hjt, and_vmask]
          rw [aget_aset_ne]
          rw [mod32_range htmod htl (by omega), mod32_range htmod hjt (by omega)]
          omega
        · rw [if_neg hjt, if_neg hjt]
      · rw [if_neg hjc, if_neg hjc]

theorem Pop_default {α : Type} (v1 : Vector α) (h0 : ¬ v1.count = 0)
    (h1 : ¬ v1.count = 1) (h2 : ¬ (v1.count - v1.tailOffset > 1)) :
    v1.Pop =
      (let newTail := v1.arrayFor (v1.count - 2)
       let newRoot := (popTail v1.count v1.root.editOf v1.shift v1.root).getD (emptyNode α)
       if v1.shift > bits ∧ (aget newRoot.arrOf 1).isNil then
         some { count := v1.count - 1, shift := v1.shift - bits,
                root := match aget newRoot.arrOf 0 with
                  | .nil => emptyNode α
                  | r => r,
                tail := newTail }
       else some { count := v1.count - 1, shift := v1.shift, root := newRoot,
                   tail := newTail }) := by
  rw [Vector.Pop, if_neg h0, if_neg h1, if_neg h2]

theorem roomInTail_iff {α : Type} (v : Vector α) :
    v.roomInTail = true ↔ v.count - v.tailOffset < 32 := by
  rw [Vector.roomInTail]
  simp [width, bits]

theorem At_eq_parts {α : Type} (v w : Vector α)
    (hc : w.count = v.count) (htail : w.tail = v.tail)
    (htrie : ∀ j, j < v.tailOffset →
      aget (arrayForLoop w.shift w.root j) (j % 32)
        = aget (arrayForLoop v.shift v.root j) (j % 32)) :
    ∀ j, w.At j = v.At j := by
  intro j
  rw [At_unfold, At_unfold, tailOffset_count_eq hc, hc, htail]
  by_cases hjc : j < v.count
  · rw [if_pos hjc, if_pos hjc]
    by_cases hjt : v.tailOffset ≤ j
    · rw [if_pos hjt, if_pos hjt]
    · rw [if_neg hjt, if_neg hjt, htrie j (by omega)]
  · rw [if_neg hjc, if_neg hjc]

/-- `Pop` after `Append` restores the original vector element-for-element -/
theorem Append_Pop_elementwise {α : Type} (v : Vector α) (hWF : WF v) (x : α) :
    ∃ v3, (v.Append x).Pop = some v3 ∧ v3.count = v.count ∧ ∀ j, v3.At j = v.At j := by
  have htmod := tailOffset_mod v
  have hcle := count_le_tailOffset_add v
  have hcap := hWF.cap
  rw [Vector.Append]
  by_cases hroom : v.roomInTail = true
  · -- Go case 1: room in the tail
    have hroom2 : v.count - v.tailOffset < 32 := (roomInTail_iff v).mp hroom
    rw [if_pos hroom]
    rcases Nat.eq_zero_or_pos v.count with hc0 | hc1
    · refine ⟨emptyV α, ?_, by rw [hc0]; rfl, ?_⟩
      · rw [Vector.Pop, if_neg (by dsimp only; omega), if_pos (by dsimp only; omega)]
      · intro j
        rw [At_unfold, At_unfold]
        rw [if_neg (by dsimp only [emptyV]; omega), if_neg (by omega)]
    · have htle := tailOffset_le v hc1
      have ht1 : ∀ w : Vector α, w.count = v.count + 1 → w.tailOffset = v.tailOffset :=
        fun w hw => tailOffset_succ v w hw hc1 hroom2
      rw [Vector.Pop, if_neg (by dsimp only; omega), if_neg (by dsimp only; omega),
        if_pos (by dsimp only; rw [ht1 _ rfl]; omega)]
      refine ⟨_, rfl, rfl, ?_⟩
      intro j
      rw [At_unfold, At_unfold]
      simp only [tailOffset_eq]
      simp only [Nat.add_sub_cancel]
      rw [← tailOffset_eq v]
      have hv1t := ht1 { v with count := v.count + 1, tail := aset v.tail (v.count - v.tailOffset) (VSlot.val x) } rfl
      rw [tailOffset_eq] at hv1t
      dsimp only at hv1t
      simp only [Nat.add_sub_cancel] at hv1t
      rw [hv1t]
      by_cases hjc : j < v.count
      · rw [if_pos hjc, if_pos hjc]
        by_cases hjt : v.tailOffset ≤ j
        · rw [if_pos hjt, if_pos hjt]
          have hjmod : j % 32 = j - v.tailOffset := mod32_range htmod hjt (by omega)
          have hlen_aset : (aset v.tail (v.count - v.tailOffset) (.val x)).length = 32 := by
            rw [aset_length, hWF.tail_len]
          have hlen_take : ((aset v.tail (v.count - v.tailOffset) (.val x)).take
              (v.count + 1 - v.tailOffset - 1)).length = v.count - v.tailOffset := by
            rw [List.length_take, hlen_aset]
            omega
          rw [Vector.arrayNewFromSlice, aget_append_lt (by rw [hlen_take]; omega),
            aget_take_lt (by omega), aget_aset_ne _ _ _ _ (by omega)]
        · rw [if_neg hjt, if_neg hjt]
      · rw [if_neg hjc, if_neg hjc]
  · -- the tail is full
    have hfull := full_tail_char v (by
      by_contra h0
      have : v.count = 0 := by omega
      apply hroom
      rw [roomInTail_iff, this]
      simp) (by
        intro hcon
        exact hroom ((roomInTail_iff v).mpr hcon))
    obtain ⟨hct, hcmod, hc32⟩ := hfull
    have hsm := hWF.shift_mod
    have hge := hWF.shift_ge
    rw [if_neg hroom]
    have htn : ∃ e2 arr2, vnodeNewFromArray v.root.editOf v.tail = VSlot.node e2 arr2 ∧
        arr2.length = 32 := ⟨v.root.editOf, v.tail, rfl, hWF.tail_len⟩
    have h2l32 : (32 : Nat) ∣ 2 ^ (v.shift + 5) :=
      Dvd.dvd.trans (by norm_num : (32:Nat) ∣ 2 ^ 5) (pow_dvd_pow 2 (by omega))
    by_cases hov : v.overflowsRoot = true
    · -- Go case 2: the root overflows, grow a level  (trie exactly full)
      have hteq : v.tailOffset = 2 ^ (v.shift + 5) := (overflow_char v hWF hct).mp hov
      have htpos : 32 ≤ v.tailOffset := by
        rw [hteq]
        calc (32 : Nat) = 2 ^ 5 := by norm_num
        _ ≤ 2 ^ (v.shift + 5) := Nat.pow_le_pow_right (by norm_num) (by omega)
      rw [if_pos hov]
      simp only [bits]
      set re := v.root.editOf with hre
      set np := newPath re v.shift (vnodeNewFromArray re v.tail) with hnp
      set arr1 := aset (aset (newArray α) 0 v.root) 1 np with harr1
      have harr1len : arr1.length = 32 := by
        rw [harr1, aset_length, aset_length, newArray_length]
      have hget0 : aget arr1 0 = v.root := by
        rw [harr1, aget_aset_ne _ _ _ _ (by omega),
          aget_aset_self _ _ _ (by rw [newArray_length]; omega)]
      have hget1 : aget arr1 1 = np := by
        rw [harr1, aget_aset_self _ _ _ (by rw [aset_length, newArray_length]; omega)]
      have hgets : ∀ s, 2 ≤ s → aget arr1 s = .nil := by
        intro s hs
        rw [harr1, aget_aset_ne _ _ _ _ (by omega), aget_aset_ne _ _ _ _ (by omega),
          aget_newArray]
      have hnpl := newPath_sh v.shift hWF.shift_mod re (vnodeNewFromArray re v.tail)
        v.tailOffset (by rw [hteq]; exact Nat.mod_self _) htn
      have hsh1 : trieSh (v.shift + 5) (VSlot.node re arr1) 0 (v.tailOffset + 32) := by
        apply trieSh_intro _ _ harr1len
        intro _ s hs
        match s, hs with
        | 0, _ =>
          constructor
          · intro habs
            have habs2 : v.tailOffset + 32 ≤ 0 := by simpa using habs
            omega
          · intro _
            rw [hget0]
            have hz : (0 : Nat) + 0 * 2 ^ (v.shift + 5) = 0 := by simp
            rw [hz, Nat.add_sub_cancel]
            apply trieSh_congr v.shift hWF.shift_mod _ _ v.tailOffset _ hWF.sh
            intro cb hcb1 hcb2
            have h32sh : 32 * 2 ^ v.shift = 2 ^ (v.shift + 5) := by
              rw [pow_add]
              ring
            rw [Nat.zero_add, h32sh, ← hteq] at hcb2
            omega
        | 1, _ =>
          constructor
          · intro habs
            have := hteq
            simp at habs
            omega
          · intro _
            rw [hget1, Nat.add_sub_cancel]
            have h1 : (0 : Nat) + 1 * 2 ^ (v.shift + 5) = v.tailOffset := by
              rw [hteq]
              ring
            rw [h1]
            exact hnpl.1
        | (s + 2), hs =>
          constructor
          · intro _
            exact hgets _ (by omega)
          · intro habs
            have h1 : 2 * 2 ^ (v.shift + 5) ≤ (s + 2) * 2 ^ (v.shift + 5) :=
              mul_le_mul_right' (by omega) _
            rw [← hteq] at h1 habs
            have h2 : 2 * v.tailOffset = v.tailOffset + v.tailOffset := by ring
            omega
      have hsplit10 : (2 : Nat) ^ (v.shift + 5 + 5) = 2 ^ (v.shift + 5) * 32 := by
        rw [pow_add]
        norm_num
      have hpm := popTail_master (v.shift + 5) (by omega) (by omega) (VSlot.node re arr1) 0
        (v.tailOffset + 32) (v.count + 1) re hsh1 (Nat.zero_mod _) (by omega) (by omega)
        (by rw [Nat.zero_add, hsplit10]; omega) (by omega)
      obtain ⟨n2, hpop⟩ : ∃ n2, popTail (v.count + 1) re (v.shift + 5) (VSlot.node re arr1)
          = some n2 := by
        cases hcase : popTail (v.count + 1) re (v.shift + 5) (VSlot.node re arr1) with
        | none => exact absurd (hpm.1.mp hcase) (by omega)
        | some nn => exact ⟨nn, rfl⟩
      have hn2 := hpm.2 n2 hpop
      have hsh2 : trieSh (v.shift + 5) n2 0 v.tailOffset := by
        have h := hn2.1
        simpa using h
      obtain ⟨e2, arr2b, hn2eq, harr2len⟩ := trieSh_node hsh2
      have hsh2x : trieSh (v.shift + 5) (VSlot.node e2 arr2b) 0 v.tailOffset := by
        rw [← hn2eq]
        exact hsh2
      have hnil1 : aget arr2b 1 = (VSlot.nil : VSlot α) := by
        apply (trieSh_children hsh2x (by omega) (by norm_num : (1 : Nat) < 32)).1
        omega
      have hvsh0 : trieSh v.shift (aget arr2b 0) 0 v.tailOffset := by
        have h := (trieSh_children hsh2x (by omega) (by norm_num : (0 : Nat) < 32)).2 (by omega)
        simpa using h
      obtain ⟨e0, arr0b, h0eq, harr0len⟩ := trieSh_node hvsh0
      have hnewTail : arrayForLoop (v.shift + 5) (VSlot.node re arr1) (v.tailOffset + 31)
          = v.tail := by
        rw [arrayForLoop_pos (v.shift + 5) (by omega)]
        simp only [arrOf_node]
        have hchunk1 : ((v.tailOffset + 31) >>> (v.shift + 5)) &&& vmask = 1 := by
          rw [chunk_in_block (Nat.zero_mod _) (Nat.zero_le _)
            (by rw [Nat.zero_add, hsplit10]; omega)]
          simp only [Nat.sub_zero]
          apply Nat.div_eq_of_lt_le
          · omega
          · omega
        rw [hchunk1, hget1, Nat.add_sub_cancel]
        rw [hnpl.2 (v.tailOffset + 31) (by omega) (by omega)]
        rfl
      have hv1t : ({ count := v.count + 1, shift := v.shift + 5, root := VSlot.node re arr1, tail := aset (newArray α) 0 (VSlot.val x) } : Vector α).tailOffset = v.tailOffset + 32 :=
        tailOffset_of_multiple (by dsimp only; omega) (by omega) (by omega)
      have hPop := Pop_default { count := v.count + 1, shift := v.shift + 5, root := VSlot.node re arr1, tail := aset (newArray α) 0 (VSlot.val x) }
        (by dsimp only; omega) (by dsimp only; omega) (by rw [hv1t]; dsimp only; omega)
      rw [hPop]
      dsimp only [VSlot.editOf]
      simp only [bits]
      rw [hpop]
      simp only [Option.getD_some]
      rw [hn2eq]
      simp only [arrOf_node]
      rw [hnil1, h0eq]
      have hcondB : v.shift + 5 > 5 ∧ ((VSlot.nil : VSlot α).isNil = true) := ⟨by omega, rfl⟩
      rw [if_pos hcondB]
      dsimp only
      have hidxB : v.count + 1 - 2 = v.tailOffset + 31 := by omega
      have hntB : ¬ ({ count := v.count + 1, shift := v.shift + 5, root := VSlot.node re arr1, tail := aset (newArray α) 0 (VSlot.val x) } : Vector α).tailOffset ≤ v.tailOffset + 31 := by
        rw [hv1t]
        omega
      rw [hidxB, arrayFor_trie hntB]
      dsimp only
      rw [hnewTail]
      refine ⟨_, rfl, rfl, ?_⟩
      refine At_eq_parts v _ rfl rfl ?_
      intro j hj
      dsimp only
      simp only [Nat.add_sub_cancel]
      have hchunk0 : (j >>> (v.shift + 5)) &&& vmask = 0 := by
        rw [chunk_in_block (Nat.zero_mod _) (Nat.zero_le _)
          (by rw [Nat.zero_add, hsplit10]; omega)]
        simp only [Nat.sub_zero]
        exact Nat.div_eq_of_lt (by omega)
      have hr := hn2.2 j (Nat.zero_le _) (by omega)
      rw [treeGet, treeGet, and_vmask] at hr
      have hLs : arrayForLoop (v.shift + 5) n2 j = arrayForLoop v.shift (VSlot.node e0 arr0b) j := by
        rw [hn2eq, arrayForLoop_pos (v.shift + 5) (by omega)]
        simp only [arrOf_node]
        rw [hchunk0, Nat.add_sub_cancel, h0eq]
      have hRs : arrayForLoop (v.shift + 5) (VSlot.node re arr1) j
          = arrayForLoop v.shift v.root j := by
        rw [arrayForLoop_pos (v.shift + 5) (by omega)]
        simp only [arrOf_node]
        rw [hchunk0, Nat.add_sub_cancel, hget0]
      rw [hLs, hRs] at hr
      exact hr
    · -- Go case 3: push the full tail one level down into the trie
      rw [if_neg hov]
      have hspan2 : v.tailOffset + 32 ≤ 2 ^ (v.shift + 5) := by
        have hne : v.tailOffset ≠ 2 ^ (v.shift + 5) := by
          intro h
          exact hov ((overflow_char v hWF hct).mpr h)
        obtain ⟨k1, hk1⟩ := Nat.dvd_of_mod_eq_zero htmod
        obtain ⟨k2, hk2⟩ := h2l32
        omega
      set P := pushTail v.count v.root.editOf v.shift v.root
        (vnodeNewFromArray v.root.editOf v.tail) with hPdef
      have hm3 := pushTail_master v.shift hsm hge v.root
        (vnodeNewFromArray v.root.editOf v.tail) 0 v.tailOffset v.count v.root.editOf
        hWF.sh (Nat.zero_mod _) htmod (by omega) (by omega) hct htn
      rw [← hPdef] at hm3
      have hpm := popTail_master v.shift hsm hge P 0 (v.tailOffset + 32) (v.count + 1)
        P.editOf hm3.1 (Nat.zero_mod _) (by omega) (by omega) (by omega) (by omega)
      have hv1tC : ({ count := v.count + 1, shift := v.shift, root := P, tail := aset (newArray α) 0 (VSlot.val x) } : Vector α).tailOffset = v.tailOffset + 32 :=
        tailOffset_of_multiple (by dsimp only; omega) (by omega) (by omega)
      have hPop := Pop_default { count := v.count + 1, shift := v.shift, root := P, tail := aset (newArray α) 0 (VSlot.val x) }
        (by dsimp only; omega) (by dsimp only; omega) (by rw [hv1tC]; dsimp only; omega)
      rw [hPop]
      dsimp only
      simp only [bits]
      have hnewTailC : arrayForLoop v.shift P (v.tailOffset + 31) = v.tail := by
        have h := hm3.2.2 (v.tailOffset + 31) (by omega) (by omega)
        rw [h]
        rfl
      have hidxC : v.count + 1 - 2 = v.tailOffset + 31 := by omega
      have hntC : ¬ ({ count := v.count + 1, shift := v.shift, root := P, tail := aset (newArray α) 0 (VSlot.val x) } : Vector α).tailOffset ≤ v.tailOffset + 31 := by
        rw [hv1tC]
        omega
      rw [hidxC, arrayFor_trie hntC]
      dsimp only
      rw [hnewTailC]
      have hagetE : ∀ i : Nat, aget (emptyNode α).arrOf i = (VSlot.nil : VSlot α) := by
        intro i
        simp only [emptyNode, vnodeNew, arrOf_node]
        exact aget_newArray α i
      rcases Nat.eq_zero_or_pos v.tailOffset with ht0 | htposC
      · -- the trie was empty: popTail returns nothing
        have hnone : popTail (v.count + 1) P.editOf v.shift P = none :=
          hpm.1.mpr (by omega)
        rw [hnone]
        simp only [Option.getD_none]
        rw [hagetE 1]
        by_cases hs5 : v.shift > 5
        · have hcnd : v.shift > 5 ∧ ((VSlot.nil : VSlot α).isNil = true) := ⟨hs5, rfl⟩
          rw [if_pos hcnd, hagetE 0]
          dsimp only
          refine ⟨_, rfl, rfl, ?_⟩
          refine At_eq_parts v _ rfl rfl ?_
          intro j hj
          exact absurd hj (by omega)
        · have hcnd2 : ¬ (v.shift > 5 ∧ ((VSlot.nil : VSlot α).isNil = true)) :=
            fun hco => hs5 hco.1
          rw [if_neg hcnd2]
          refine ⟨_, rfl, rfl, ?_⟩
          refine At_eq_parts v _ rfl rfl ?_
          intro j hj
          exact absurd hj (by omega)
      · -- the trie keeps at least one leaf
        obtain ⟨n2, hpop2⟩ : ∃ n2, popTail (v.count + 1) P.editOf v.shift P = some n2 := by
          cases hcase : popTail (v.count + 1) P.editOf v.shift P with
          | none => exact absurd (hpm.1.mp hcase) (by omega)
          | some nn => exact ⟨nn, rfl⟩
        have hn2C := hpm.2 n2 hpop2
        have hsh2C : trieSh v.shift n2 0 v.tailOffset := by
          have h := hn2C.1
          simpa using h
        obtain ⟨e2, arr2b, hn2eqC, harr2lenC⟩ := trieSh_node hsh2C
        have hsh2Cx : trieSh v.shift (VSlot.node e2 arr2b) 0 v.tailOffset := by
          rw [← hn2eqC]
          exact hsh2C
        rw [hpop2]
        simp only [Option.getD_some]
        rw [hn2eqC]
        simp only [arrOf_node]
        by_cases hcol : v.shift > 5 ∧ (aget arr2b 1).isNil = true
        · -- the new root has a single child: collapse a level
          rw [if_pos hcol]
          have hble : v.tailOffset ≤ 2 ^ v.shift := by
            by_contra hgt
            have h := (trieSh_children hsh2Cx (by omega) (by norm_num : (1 : Nat) < 32)).2
              (by omega)
            obtain ⟨e9, arr9, h9, _⟩ := trieSh_node h
            have hfalse := hcol.2
            rw [h9] at hfalse
            simp only [VSlot.isNil] at hfalse
            exact Bool.noConfusion hfalse
          have hvsh0C : trieSh (v.shift - 5) (aget arr2b 0) 0 v.tailOffset := by
            have h := (trieSh_children hsh2Cx (by omega) (by norm_num : (0 : Nat) < 32)).2
              (by omega)
            simpa using h
          obtain ⟨e0, arr0b, h0eqC, harr0lenC⟩ := trieSh_node hvsh0C
          rw [h0eqC]
          dsimp only
          refine ⟨_, rfl, rfl, ?_⟩
          refine At_eq_parts v _ rfl rfl ?_
          intro j hj
          dsimp only
          have hchunk0C : (j >>> v.shift) &&& vmask = 0 := by
            rw [chunk_in_block (Nat.zero_mod _) (Nat.zero_le _) (by omega)]
            simp only [Nat.sub_zero]
            exact Nat.div_eq_of_lt (by omega)
          have hL := hn2C.2 j (Nat.zero_le _) (by omega)
          rw [treeGet, treeGet, and_vmask] at hL
          have hstep : arrayForLoop v.shift n2 j
              = arrayForLoop (v.shift - 5) (VSlot.node e0 arr0b) j := by
            rw [hn2eqC, arrayForLoop_pos v.shift (by omega)]
            simp only [arrOf_node]
            rw [hchunk0C, h0eqC]
          have hP := hm3.2.1 j (Nat.zero_le _) hj
          rw [treeGet, treeGet, and_vmask] at hP
          rw [hstep] at hL
          rw [hL, hP]
        · -- no collapse: keep the popped root as is
          rw [if_neg hcol]
          refine ⟨_, rfl, rfl, ?_⟩
          refine At_eq_parts v _ rfl rfl ?_
          intro j hj
          dsimp only
          have hL := hn2C.2 j (Nat.zero_le _) (by omega)
          rw [treeGet, treeGet, and_vmask] at hL
          have hP := hm3.2.1 j (Nat.zero_le _) hj
          rw [treeGet, treeGet, and_vmask] at hP
          rw [hn2eqC] at hL
          rw [hL, hP]

end Vector

end Vec

/-! ### Claim C2: the persistent vector's assoc and append/pop laws -/

/-- C2: for a well-formed persistent vector `V` and an in-range index `i`,
`at(assoc(V,i,x), i) = x` and `at(assoc(V,i,x), j) = at(V,j)` for every
`j ≠ i`, and `pop(append(V,x))` yields a vector equal element-wise to `V`
(same length, same `at` result at every index). -/
theorem C2_vector_assoc_and_append_pop {α : Type} (v : Vec.Vector α)
    (hWF : Vec.Vector.WF v) (i : Nat) (x : α) (hi : i < v.count) :
    (∃ v2, v.Assoc i x = some v2 ∧ v2.count = v.count ∧ v2.At i = some x ∧
      (∀ j, j ≠ i → v2.At j = v.At j)) ∧
    (∃ v3, (v.Append x).Pop = some v3 ∧ v3.count = v.count ∧
      ∀ j, v3.At j = v.At j) :=
  ⟨Vec.Vector.Assoc_reads v hWF i x hi, Vec.Vector.Append_Pop_elementwise v hWF x⟩

/-- a concrete one-element vector `[3]` for instantiating the vector laws -/
def vOne : Vec.Vector Nat :=
  { count := 1, shift := 5, root := Vec.emptyNode Nat,
    tail := Vec.aset (Vec.newArray Nat) 0 (Vec.VSlot.val 3) }

/-- the one-element vector is well-formed -/
theorem vOne_WF : Vec.Vector.WF vOne :=
  { shift_ge := by decide
    shift_mod := by decide
    tail_len := by decide
    cap := by decide
    sh := Vec.Vector.trieSh_empty 5 0 }

/-- C2 witnessed at the one-element vector `[3]`, index `0`, new value `7` -/
theorem C2_vector_assoc_and_append_pop_witness :
    Vec.Vector.WF vOne ∧ 0 < vOne.count ∧
    ((∃ v2, vOne.Assoc 0 7 = some v2 ∧ v2.count = vOne.count ∧ v2.At 0 = some 7 ∧
        (∀ j, j ≠ 0 → v2.At j = vOne.At j)) ∧
      (∃ v3, (vOne.Append 7).Pop = some v3 ∧ v3.count = vOne.count ∧
        ∀ j, v3.At j = vOne.At j)) :=
  ⟨vOne_WF, by decide, C2_vector_assoc_and_append_pop vOne vOne_WF 0 7 (by decide)⟩

/-! ### Claim C10: nil-receiver behaviour of Length and Append -/

/-- C10: `Length` on a nil `*Vector` receiver returns `0`, and `Append` on a
nil `*Vector` receiver does not fail: it returns `Empty().Append(value)`, a
one-element vector whose element at index `0` is the appended value. -/
theorem C10_nil_vector_length_append {α : Type} (x : α) :
    Vec.LengthPtr (none : Option (Vec.Vector α)) = 0 ∧
    Vec.AppendPtr (none : Option (Vec.Vector α)) x = (Vec.emptyV α).Append x ∧
    (Vec.AppendPtr (none : Option (Vec.Vector α)) x).Length = 1 ∧
    (Vec.AppendPtr (none : Option (Vec.Vector α)) x).At 0 = some x :=
  ⟨rfl, rfl, rfl, rfl⟩

/-! ## The HAMT map engine (hashmap package)

Shallow embedding of the persistent paths of the hash-array-mapped trie:
`bitmapIndexedNode`, `arrayNode` and `hashCollisionNode`, specialised to
`Nat` keys and values and to persistent calls (the edit token is the shared
`zero`, so `isEditable` is always false and every `ensureEditable` copies).
The hash function is a parameter `hf`.  Where Go keeps the full hash and a
shift counter, the embedding passes the residual hash `h = hf k / 32 ^ lvl`
and divides by 32 on each descent; `mask(hash, 5*lvl) = (hash / 32 ^ lvl) % 32`,
so the two presentations select the same chunks.  Full hashes are still
compared in full (`hf k`, and the hash stored in a collision node). -/

namespace HM

mutual
inductive HEntry : Type where
  | kv : Nat → Nat → HEntry
  | sub : HNode → HEntry
  | nilE : HEntry
inductive HNode : Type where
  | bitmap : Nat → List HEntry → HNode
  | anode : Nat → List (Option HNode) → HNode
  | cnode : Nat → List HEntry → HNode
end

/-- residual hash of `k` after `lvl` five-bit chunks are consumed -/
def hres (hf : Nat → Nat) (k : Nat) (lvl : Nat) : Nat := hf k / 32 ^ lvl

/-- `bits.OnesCount32` -/
def popcount (n : Nat) : Nat :=
  if n = 0 then 0 else popcount (n / 2) + n % 2
termination_by n
decreasing_by
  exact Nat.div_lt_self (Nat.pos_of_ne_zero (by assumption)) (by norm_num)

/-- `n.index(bit)` with `bit = 1 <<< j`: entries before chunk `j` -/
def index (bm j : Nat) : Nat := popcount (bm % 2 ^ j)

/-- entry read (Go indexes a slice; out of range is unreachable here) -/
def eget (arr : List HEntry) (i : Nat) : HEntry := arr.getD i .nilE

/-- slot read of an `arrayNode`'s fixed 32-slot array -/
def oget (arr : List (Option HNode)) (i : Nat) : Option HNode := arr.getD i none

/-- `entries.insert(idx, ent)` (the persistent copy path) -/
def einsert : List HEntry → Nat → HEntry → List HEntry
  | arr, 0, e => e :: arr
  | [], _ + 1, e => [e]
  | a :: arr, i + 1, e => a :: einsert arr i e

/-- `entries.remove(idx)` with the returned shorter slice discarded, as in
`bitmapIndexedNode.without`: the elements shift left and the last slot is
zeroed, so the array keeps its length and gains a trailing empty entry -/
def eremoveZ : List HEntry → Nat → List HEntry
  | [], _ => []
  | _ :: arr, 0 => arr ++ [.nilE]
  | a :: arr, i + 1 => a :: eremoveZ arr i

/-- `entries.remove(idx)` with the result assigned, as in
`hashCollisionNode.without`: the list truly shrinks -/
def eremove : List HEntry → Nat → List HEntry
  | [], _ => []
  | _ :: arr, 0 => arr
  | a :: arr, i + 1 => a :: eremove arr i

/-- `findIndex` of `hashCollisionNode`: first entry whose key equals `k`
(a non-leaf entry never matches, `dyn.Equal(k, nil)` is false) -/
def entIdx : List HEntry → Nat → Option Nat
  | [], _ => none
  | .kv k2 _ :: arr, k => if k2 = k then some 0 else (entIdx arr k).map (· + 1)
  | _ :: arr, k => (entIdx arr k).map (· + 1)

mutual
/-- all keys stored below a node -/
def keys : HNode → List Nat
  | .bitmap _ arr => keysL arr
  | .cnode _ arr => keysL arr
  | .anode _ arr => keysLO arr
def keysL : List HEntry → List Nat
  | [] => []
  | e :: arr => keysE e ++ keysL arr
def keysE : HEntry → List Nat
  | .kv k _ => [k]
  | .sub n => keys n
  | .nilE => []
def keysLO : List (Option HNode) → List Nat
  | [] => []
  | none :: arr => keysLO arr
  | some n :: arr => keys n ++ keysLO arr
end

/-- an element of a list is smaller than the list -/
theorem sizeOf_lt_of_eget {arr : List HEntry} {i : Nat} {c : HNode}
    (h : eget arr i = .sub c) : sizeOf c < sizeOf arr := by
  induction arr generalizing i with
  | nil => simp [eget, List.getD] at h
  | cons a arr ih =>
    match i with
    | 0 =>
      simp only [eget, List.getD_cons_zero] at h
      subst h
      simp
      omega
    | i + 1 =>
      have := ih (by simpa [eget, List.getD] using h)
      simp
      omega

theorem sizeOf_lt_of_oget {arr : List (Option HNode)} {i : Nat} {c : HNode}
    (h : oget arr i = some c) : sizeOf c < sizeOf arr := by
  induction arr generalizing i with
  | nil => simp [oget, List.getD] at h
  | cons a arr ih =>
    match i with
    | 0 =>
      simp only [oget, List.getD_cons_zero] at h
      subst h
      simp
      omega
    | i + 1 =>
      have := ih (by simpa [oget, List.getD] using h)
      simp
      omega

/-- `find` of the three node kinds (`(nil, false)` is `none`); on a slot the
well-formedness invariant rules out (an empty entry at a set bit) Go fails a
nil-interface assertion, the model returns `none` -/
def find : HNode → Nat → Nat → Option Nat
  | .bitmap bm arr, h, k =>
    if bm.testBit (h % 32) then
      match hent : eget arr (index bm (h % 32)) with
      | .kv k2 v => if k2 = k then some v else none
      | .sub c => find c (h / 32) k
      | .nilE => none
    else none
  | .anode _ arr, h, k =>
    match hslot : oget arr (h % 32) with
    | none => none
    | some c => find c (h / 32) k
  | .cnode _ arr, _, k =>
    match entIdx arr k with
    | none => none
    | some i =>
      match eget arr i with
      | .kv _ v => some v
      | _ => none
termination_by n => sizeOf n
decreasing_by
  · have := sizeOf_lt_of_eget hent
    simp
    omega
  · have := sizeOf_lt_of_oget hslot
    simp
    omega

end HM

namespace HM

/-- result of `assoc` on a node: Go's `(node, added)` pair plus whether the
returned interface is pointer-equal to the receiver (Go compares pointers;
in the persistent paths only the `return n, ...` branches give equality) -/
structure ARes where
  node : HNode
  added : Bool
  same : Bool

/-- result of `without` on a node: Go's `(node, removed)` with `nil` as
`none`, plus receiver pointer-equality as in `ARes` -/
structure WRes where
  node : Option HNode
  removed : Bool
  same : Bool

/-- merging two leaf entries with distinct keys one level down, as
`emptySeededBitmapNode().assoc(shift, h1, k1, v1)` followed by
`.assoc(shift, h2, k2, v2)` computes it: a chunk clash descends, equal full
hashes build a collision node.  `h1, h2` are the residual hashes at this
level, `f1, f2` the full hashes.  When the residuals are exhausted while the
full hashes differ (impossible below a bitmap slot both entries reached) Go
descends forever; the model stops at the residual comparison. -/
def mergePair : Nat → Nat → Nat → Nat → Nat → Nat → Nat → Nat → HNode
  | h1, f1, k1, v1, h2, f2, k2, v2 =>
    if h1 % 32 = h2 % 32 then
      if h1 = h2 then
        .bitmap (2 ^ (h1 % 32)) [.sub (.cnode f1 [.kv k1 v1, .kv k2 v2])]
      else
        .bitmap (2 ^ (h1 % 32))
          [.sub (mergePair (h1 / 32) f1 k1 v1 (h2 / 32) f2 k2 v2)]
    else
      if h1 % 32 < h2 % 32 then
        .bitmap (2 ^ (h1 % 32) + 2 ^ (h2 % 32)) [.kv k1 v1, .kv k2 v2]
      else
        .bitmap (2 ^ (h1 % 32) + 2 ^ (h2 % 32)) [.kv k2 v2, .kv k1 v1]
termination_by h1 _ _ _ h2 => h1 + h2
decreasing_by
  rename_i hmod hne
  have h1pos : 0 < h1 + h2 := by
    rcases Nat.eq_zero_or_pos (h1 + h2) with h0 | h0
    · exact absurd (by omega : h1 = h2) hne
    · exact h0
  have d1 : h1 / 32 ≤ h1 := Nat.div_le_self _ _
  have d2 : h2 / 32 ≤ h2 := Nat.div_le_self _ _
  rcases Nat.eq_zero_or_pos h1 with hz1 | hp1
  · have : h2 / 32 < h2 := Nat.div_lt_self (by omega) (by norm_num)
    omega
  · have : h1 / 32 < h1 := Nat.div_lt_self hp1 (by norm_num)
    omega

/-- a new key arriving at a collision node whose full hash differs: Go wraps
the collision node in a one-entry bitmap node at each level until the chunks
separate.  `hn` is the collision hash's residual, `h` the key's. -/
def wrapC : Nat → HNode → Nat → Nat → Nat → Nat → HNode
  | hn, cn, h, f, k, v =>
    if hn % 32 = h % 32 then
      if hn = h then
        .bitmap (2 ^ (hn % 32)) [.sub cn]
      else
        .bitmap (2 ^ (hn % 32)) [.sub (wrapC (hn / 32) cn (h / 32) f k v)]
    else
      if h % 32 < hn % 32 then
        .bitmap (2 ^ (hn % 32) + 2 ^ (h % 32)) [.kv k v, .sub cn]
      else
        .bitmap (2 ^ (hn % 32) + 2 ^ (h % 32)) [.sub cn, .kv k v]
termination_by hn _ h => hn + h
decreasing_by
  rename_i hmod hne
  have d1 : hn / 32 ≤ hn := Nat.div_le_self _ _
  have d2 : h / 32 ≤ h := Nat.div_le_self _ _
  rcases Nat.eq_zero_or_pos hn with hz1 | hp1
  · have : h / 32 < h := Nat.div_lt_self (by omega) (by norm_num)
    omega
  · have : hn / 32 < hn := Nat.div_lt_self hp1 (by norm_num)
    omega

/-- `bitmapIndexedNode.unpack`: spread a full bitmap node into an
`arrayNode`, re-hashing each leaf entry into a one-entry bitmap child one
level down (an empty entry at a set bit would fail Go's interface
assertion) -/
def unpack (hf : Nat → Nat) (lvl : Nat) (bm : Nat) (arr : List HEntry)
    (idx : Nat) (child : HNode) : HNode :=
  .anode (arr.length + 1)
    ((List.range 32).map fun i =>
      if bm.testBit i then
        match eget arr (index bm i) with
        | .kv k v => some (.bitmap (2 ^ (hres hf k (lvl + 1) % 32)) [.kv k v])
        | .sub c => some c
        | .nilE => none
      else if i = idx then some child else none)

/-- the bitmap of `arrayNode.pack`: a bit for every populated slot other
than the one being dropped -/
def packBits (arr : List (Option HNode)) (idx : Nat) : Nat :=
  (List.range 32).foldr
    (fun i acc => if i ≠ idx ∧ (oget arr i).isSome then 2 ^ i + acc else acc) 0

/-- the entries of `arrayNode.pack`, in slot order -/
def packEntries (arr : List (Option HNode)) (idx : Nat) : List HEntry :=
  (List.range 32).filterMap fun i =>
    if i = idx then none else (oget arr i).map .sub

/-- `arrayNode.pack(edit, idx)`: Go fills a fixed `count-1`-long entry
array; under the node invariant `count-1` is exactly the number of entries
kept (fewer would leave empty entries, more would index out of range) -/
def pack (cnt : Nat) (arr : List (Option HNode)) (idx : Nat) : HNode :=
  .bitmap (packBits arr idx)
    ((packEntries arr idx).take (cnt - 1) ++
      List.replicate (cnt - 1 - (packEntries arr idx).length) .nilE)

/-- `assoc` of the three node kinds (persistent paths).  The `.nilE` cases
are Go nil-interface assertion failures, unreachable under the invariant. -/
def assoc (hf : Nat → Nat) : Nat → HNode → Nat → Nat → Nat → ARes
  | lvl, .bitmap bm arr, h, k, v =>
    if bm.testBit (h % 32) then
      match hent : eget arr (index bm (h % 32)) with
      | .sub c =>
        let r := assoc hf (lvl + 1) c (h / 32) k v
        if r.same then ⟨.bitmap bm arr, r.added, true⟩
        else ⟨.bitmap bm (arr.set (index bm (h % 32)) (.sub r.node)), r.added, false⟩
      | .kv k2 v2 =>
        if k2 = k then
          if v2 = v then ⟨.bitmap bm arr, false, true⟩
          else ⟨.bitmap bm (arr.set (index bm (h % 32)) (.kv k2 v)), false, false⟩
        else
          if hf k2 = hf k then
            ⟨.bitmap bm (arr.set (index bm (h % 32))
              (.sub (.cnode (hf k2) [.kv k2 v2, .kv k v]))), true, false⟩
          else
            ⟨.bitmap bm (arr.set (index bm (h % 32))
              (.sub (mergePair (hres hf k2 (lvl + 1)) (hf k2) k2 v2
                (h / 32) (hf k) k v))), true, false⟩
      | .nilE => ⟨.bitmap bm arr, false, false⟩
    else
      if 16 ≤ arr.length then
        ⟨unpack hf lvl bm arr (h % 32) (.bitmap (2 ^ (h / 32 % 32)) [.kv k v]),
          true, false⟩
      else
        ⟨.bitmap (bm + 2 ^ (h % 32))
          (einsert arr (index bm (h % 32)) (.kv k v)), true, false⟩
  | lvl, .anode cnt arr, h, k, v =>
    match hslot : oget arr (h % 32) with
    | none =>
      ⟨.anode (cnt + 1)
        (arr.set (h % 32) (some (.bitmap (2 ^ (h / 32 % 32)) [.kv k v]))),
        true, false⟩
    | some c =>
      let r := assoc hf (lvl + 1) c (h / 32) k v
      if r.same then ⟨.anode cnt arr, false, true⟩
      else ⟨.anode cnt (arr.set (h % 32) (some r.node)), r.added, false⟩
  | lvl, .cnode hh arr, h, k, v =>
    if hf k = hh then
      match entIdx arr k with
      | some i =>
        match eget arr i with
        | .kv k2 v2 =>
          if v2 = v then ⟨.cnode hh arr, false, true⟩
          else ⟨.cnode hh (arr.set i (.kv k2 v)), false, false⟩
        | _ => ⟨.cnode hh arr, false, false⟩
      | none => ⟨.cnode hh (arr ++ [.kv k v]), true, false⟩
    else
      ⟨wrapC (hh / 32 ^ lvl) (.cnode hh arr) h (hf k) k v, true, false⟩
termination_by _ n => sizeOf n
decreasing_by
  · have := sizeOf_lt_of_eget hent
    simp
    omega
  · have := sizeOf_lt_of_oget hslot
    simp
    omega

/-- `without` of the three node kinds (persistent paths) -/
def without (hf : Nat → Nat) : Nat → HNode → Nat → Nat → WRes
  | lvl, .bitmap bm arr, h, k =>
    if bm.testBit (h % 32) then
      match hent : eget arr (index bm (h % 32)) with
      | .sub c =>
        let r := without hf (lvl + 1) c (h / 32) k
        match r.node with
        | some c2 =>
          if r.same then ⟨some (.bitmap bm arr), r.removed, true⟩
          else ⟨some (.bitmap bm (arr.set (index bm (h % 32)) (.sub c2))),
            r.removed, false⟩
        | none =>
          if bm = 2 ^ (h % 32) then ⟨none, r.removed, false⟩
          else ⟨some (.bitmap (bm - 2 ^ (h % 32))
            (eremoveZ arr (index bm (h % 32)))), r.removed, false⟩
      | .kv k2 _ =>
        if k2 = k then
          if bm = 2 ^ (h % 32) then ⟨none, true, false⟩
          else ⟨some (.bitmap (bm - 2 ^ (h % 32))
            (eremoveZ arr (index bm (h % 32)))), true, false⟩
        else ⟨some (.bitmap bm arr), false, true⟩
      | .nilE => ⟨some (.bitmap bm arr), false, false⟩
    else ⟨some (.bitmap bm arr), false, true⟩
  | lvl, .anode cnt arr, h, k =>
    match hslot : oget arr (h % 32) with
    | none => ⟨some (.anode cnt arr), false, true⟩
    | some c =>
      let r := without hf (lvl + 1) c (h / 32) k
      match r.node with
      | some c2 =>
        if r.same then ⟨some (.anode cnt arr), r.removed, true⟩
        else ⟨some (.anode cnt (arr.set (h % 32) (some c2))), r.removed, false⟩
      | none =>
        if cnt ≤ 8 then ⟨some (pack cnt arr (h % 32)), r.removed, false⟩
        else ⟨some (.anode (cnt - 1) (arr.set (h % 32) none)), r.removed, false⟩
  | _, .cnode hh arr, _, k =>
    match entIdx arr k with
    | none => ⟨some (.cnode hh arr), false, true⟩
    | some i =>
      if arr.length = 1 then ⟨none, true, false⟩
      else ⟨some (.cnode hh (eremove arr i)), true, false⟩
termination_by _ n => sizeOf n
decreasing_by
  · have := sizeOf_lt_of_eget hent
    simp
    omega
  · have := sizeOf_lt_of_oget hslot
    simp
    omega

/-- the persistent `Map` (the hash seed is folded into `hf`) -/
structure HMap where
  count : Nat
  root : HNode

/-- `Empty()`: the root is an empty seeded bitmap node -/
def MapEmpty : HMap := ⟨0, .bitmap 0 []⟩

/-- `Map.Find` -/
def MapFind (hf : Nat → Nat) (m : HMap) (k : Nat) : Option Nat :=
  find m.root (hf k) k

/-- `Map.Contains` -/
def MapContains (hf : Nat → Nat) (m : HMap) (k : Nat) : Bool :=
  (MapFind hf m k).isSome

/-- `Map.Length` -/
def MapLength (m : HMap) : Nat := m.count

/-- `Map.Assoc` with the handle-identity of the result (`true` exactly on
Go's `root == m.root` early return) -/
def MapAssoc (hf : Nat → Nat) (m : HMap) (k v : Nat) : HMap × Bool :=
  let r := assoc hf 0 m.root (hf k) k v
  if r.same then (m, true)
  else if r.added then (⟨m.count + 1, r.node⟩, false)
  else (⟨m.count, r.node⟩, false)

/-- `Map.Delete` with the handle-identity of the result -/
def MapDelete (hf : Nat → Nat) (m : HMap) (k : Nat) : HMap × Bool :=
  let r := without hf 0 m.root (hf k) k
  match r.node with
  | none => (⟨m.count - 1, .bitmap 0 []⟩, false)
  | some root =>
    if r.removed then (⟨m.count - 1, root⟩, false)
    else (m, true)

end HM

namespace HM

/-! ### Unfold equations and array-access lemmas for the HAMT -/

theorem find_bitmap_nobit {bm : Nat} {arr : List HEntry} {h k : Nat}
    (hbit : bm.testBit (h % 32) = false) :
    find (.bitmap bm arr) h k = none := by
  rw [find, hbit]
  simp

theorem find_bitmap_kv {bm : Nat} {arr : List HEntry} {h k k2 v : Nat}
    (hbit : bm.testBit (h % 32) = true)
    (hent : eget arr (index bm (h % 32)) = .kv k2 v) :
    find (.bitmap bm arr) h k = (if k2 = k then some v else none) := by
  rw [find, hbit]
  simp only [if_true]
  split
  all_goals rename_i heq
  · rw [hent] at heq
    cases heq
    rfl
  · rw [hent] at heq
    cases heq
  · rw [hent] at heq
    cases heq

theorem find_bitmap_sub {bm : Nat} {arr : List HEntry} {h k : Nat} {c : HNode}
    (hbit : bm.testBit (h % 32) = true)
    (hent : eget arr (index bm (h % 32)) = .sub c) :
    find (.bitmap bm arr) h k = find c (h / 32) k := by
  rw [find, hbit]
  simp only [if_true]
  split
  all_goals rename_i heq
  · rw [hent] at heq
    cases heq
  · rw [hent] at heq
    cases heq
    rfl
  · rw [hent] at heq
    cases heq

theorem find_bitmap_nilE {bm : Nat} {arr : List HEntry} {h k : Nat}
    (hbit : bm.testBit (h % 32) = true)
    (hent : eget arr (index bm (h % 32)) = .nilE) :
    find (.bitmap bm arr) h k = none := by
  rw [find, hbit]
  simp only [if_true]
  split
  all_goals rename_i heq
  · rw [hent] at heq
    cases heq
  · rw [hent] at heq
    cases heq
  · rfl

theorem find_anode_none {cnt : Nat} {arr : List (Option HNode)} {h k : Nat}
    (hslot : oget arr (h % 32) = none) :
    find (.anode cnt arr) h k = none := by
  rw [find]
  split
  all_goals rename_i heq
  · rfl
  · rw [hslot] at heq
    cases heq

theorem find_anode_some {cnt : Nat} {arr : List (Option HNode)} {h k : Nat}
    {c : HNode} (hslot : oget arr (h % 32) = some c) :
    find (.anode cnt arr) h k = find c (h / 32) k := by
  rw [find]
  split
  all_goals rename_i heq
  · rw [hslot] at heq
    cases heq
  · rw [hslot] at heq
    cases heq
    rfl

theorem assoc_bitmap_sub {hf : Nat → Nat} {lvl bm : Nat} {arr : List HEntry}
    {h k v : Nat} {c : HNode}
    (hbit : bm.testBit (h % 32) = true)
    (hent : eget arr (index bm (h % 32)) = .sub c) :
    assoc hf lvl (.bitmap bm arr) h k v =
      (let r := assoc hf (lvl + 1) c (h / 32) k v
       if r.same then ⟨.bitmap bm arr, r.added, true⟩
       else ⟨.bitmap bm (arr.set (index bm (h % 32)) (.sub r.node)), r.added,
         false⟩) := by
  rw [assoc, hbit]
  simp only [if_true]
  split
  all_goals rename_i heq
  · rw [hent] at heq
    cases heq
    rfl
  · rw [hent] at heq
    cases heq
  · rw [hent] at heq
    cases heq

theorem assoc_bitmap_kv {hf : Nat → Nat} {lvl bm : Nat} {arr : List HEntry}
    {h k v k2 v2 : Nat}
    (hbit : bm.testBit (h % 32) = true)
    (hent : eget arr (index bm (h % 32)) = .kv k2 v2) :
    assoc hf lvl (.bitmap bm arr) h k v =
      (if k2 = k then
        if v2 = v then ⟨.bitmap bm arr, false, true⟩
        else ⟨.bitmap bm (arr.set (index bm (h % 32)) (.kv k2 v)), false, false⟩
      else
        if hf k2 = hf k then
          ⟨.bitmap bm (arr.set (index bm (h % 32))
            (.sub (.cnode (hf k2) [.kv k2 v2, .kv k v]))), true, false⟩
        else
          ⟨.bitmap bm (arr.set (index bm (h % 32))
            (.sub (mergePair (hres hf k2 (lvl + 1)) (hf k2) k2 v2
              (h / 32) (hf k) k v))), true, false⟩) := by
  rw [assoc, hbit]
  simp only [if_true]
  split
  all_goals rename_i heq
  · rw [hent] at heq
    cases heq
  · rw [hent] at heq
    cases heq
    rfl
  · rw [hent] at heq
    cases heq

theorem assoc_bitmap_new {hf : Nat → Nat} {lvl bm : Nat} {arr : List HEntry}
    {h k v : Nat} (hbit : bm.testBit (h % 32) = false) :
    assoc hf lvl (.bitmap bm arr) h k v =
      (if 16 ≤ arr.length then
        ⟨unpack hf lvl bm arr (h % 32) (.bitmap (2 ^ (h / 32 % 32)) [.kv k v]),
          true, false⟩
      else
        ⟨.bitmap (bm + 2 ^ (h % 32))
          (einsert arr (index bm (h % 32)) (.kv k v)), true, false⟩) := by
  rw [assoc, hbit]
  simp

theorem assoc_anode_none {hf : Nat → Nat} {lvl cnt : Nat}
    {arr : List (Option HNode)} {h k v : Nat}
    (hslot : oget arr (h % 32) = none) :
    assoc hf lvl (.anode cnt arr) h k v =
      ⟨.anode (cnt + 1)
        (arr.set (h % 32) (some (.bitmap (2 ^ (h / 32 % 32)) [.kv k v]))),
        true, false⟩ := by
  rw [assoc]
  split
  all_goals rename_i heq
  · rfl
  · rw [hslot] at heq
    cases heq

theorem assoc_anode_some {hf : Nat → Nat} {lvl cnt : Nat}
    {arr : List (Option HNode)} {h k v : Nat} {c : HNode}
    (hslot : oget arr (h % 32) = some c) :
    assoc hf lvl (.anode cnt arr) h k v =
      (let r := assoc hf (lvl + 1) c (h / 32) k v
       if r.same then ⟨.anode cnt arr, false, true⟩
       else ⟨.anode cnt (arr.set (h % 32) (some r.node)), r.added, false⟩) := by
  rw [assoc]
  split
  all_goals rename_i heq
  · rw [hslot] at heq
    cases heq
  · rw [hslot] at heq
    cases heq
    rfl

theorem without_bitmap_nobit {hf : Nat → Nat} {lvl bm : Nat} {arr : List HEntry}
    {h k : Nat} (hbit : bm.testBit (h % 32) = false) :
    without hf lvl (.bitmap bm arr) h k = ⟨some (.bitmap bm arr), false, true⟩ := by
  rw [without, hbit]
  simp

theorem without_bitmap_sub {hf : Nat → Nat} {lvl bm : Nat} {arr : List HEntry}
    {h k : Nat} {c : HNode}
    (hbit : bm.testBit (h % 32) = true)
    (hent : eget arr (index bm (h % 32)) = .sub c) :
    without hf lvl (.bitmap bm arr) h k =
      (let r := without hf (lvl + 1) c (h / 32) k
       match r.node with
       | some c2 =>
         if r.same then ⟨some (.bitmap bm arr), r.removed, true⟩
         else ⟨some (.bitmap bm (arr.set (index bm (h % 32)) (.sub c2))),
           r.removed, false⟩
       | none =>
         if bm = 2 ^ (h % 32) then ⟨none, r.removed, false⟩
         else ⟨some (.bitmap (bm - 2 ^ (h % 32))
           (eremoveZ arr (index bm (h % 32)))), r.removed, false⟩) := by
  rw [without, hbit]
  simp only [if_true]
  split
  all_goals rename_i heq
  · rw [hent] at heq
    cases heq
    rfl
  · rw [hent] at heq
    cases heq
  · rw [hent] at heq
    cases heq

theorem without_bitmap_kv {hf : Nat → Nat} {lvl bm : Nat} {arr : List HEntry}
    {h k k2 v2 : Nat}
    (hbit : bm.testBit (h % 32) = true)
    (hent : eget arr (index bm (h % 32)) = .kv k2 v2) :
    without hf lvl (.bitmap bm arr) h k =
      (if k2 = k then
        if bm = 2 ^ (h % 32) then ⟨none, true, false⟩
        else ⟨some (.bitmap (bm - 2 ^ (h % 32))
          (eremoveZ arr (index bm (h % 32)))), true, false⟩
      else ⟨some (.bitmap bm arr), false, true⟩) := by
  rw [without, hbit]
  simp only [if_true]
  split
  all_goals rename_i heq
  · rw [hent] at heq
    cases heq
  · rw [hent] at heq
    cases heq
    rfl
  · rw [hent] at heq
    cases heq

theorem without_anode_none {hf : Nat → Nat} {lvl cnt : Nat}
    {arr : List (Option HNode)} {h k : Nat}
    (hslot : oget arr (h % 32) = none) :
    without hf lvl (.anode cnt arr) h k = ⟨some (.anode cnt arr), false, true⟩ := by
  rw [without]
  split
  all_goals rename_i heq
  · rfl
  · rw [hslot] at heq
    cases heq

theorem without_anode_some {hf : Nat → Nat} {lvl cnt : Nat}
    {arr : List (Option HNode)} {h k : Nat} {c : HNode}
    (hslot : oget arr (h % 32) = some c) :
    without hf lvl (.anode cnt arr) h k =
      (let r := without hf (lvl + 1) c (h / 32) k
       match r.node with
       | some c2 =>
         if r.same then ⟨some (.anode cnt arr), r.removed, true⟩
         else ⟨some (.anode cnt (arr.set (h % 32) (some c2))), r.removed, false⟩
       | none =>
         if cnt ≤ 8 then ⟨some (pack cnt arr (h % 32)), r.removed, false⟩
         else ⟨some (.anode (cnt - 1) (arr.set (h % 32) none)), r.removed,
           false⟩) := by
  rw [without]
  split
  all_goals rename_i heq
  · rw [hslot] at heq
    cases heq
  · rw [hslot] at heq
    cases heq
    rfl

theorem assoc_cnode (hf : Nat → Nat) (lvl hh : Nat) (arr : List HEntry)
    (h k v : Nat) :
    assoc hf lvl (.cnode hh arr) h k v =
      (if hf k = hh then
        match entIdx arr k with
        | some i =>
          match eget arr i with
          | .kv k2 v2 =>
            if v2 = v then ⟨.cnode hh arr, false, true⟩
            else ⟨.cnode hh (arr.set i (.kv k2 v)), false, false⟩
          | _ => ⟨.cnode hh arr, false, false⟩
        | none => ⟨.cnode hh (arr ++ [.kv k v]), true, false⟩
      else
        ⟨wrapC (hh / 32 ^ lvl) (.cnode hh arr) h (hf k) k v, true, false⟩) := by
  rw [assoc]

theorem without_cnode (hf : Nat → Nat) (lvl hh : Nat) (arr : List HEntry)
    (h k : Nat) :
    without hf lvl (.cnode hh arr) h k =
      (match entIdx arr k with
      | none => ⟨some (.cnode hh arr), false, true⟩
      | some i =>
        if arr.length = 1 then ⟨none, true, false⟩
        else ⟨some (.cnode hh (eremove arr i)), true, false⟩) := by
  rw [without]

theorem popcount_eq (n : Nat) :
    popcount n = if n = 0 then 0 else popcount (n / 2) + n % 2 := by
  rw [popcount]

theorem mergePair_eq (h1 f1 k1 v1 h2 f2 k2 v2 : Nat) :
    mergePair h1 f1 k1 v1 h2 f2 k2 v2 =
      (if h1 % 32 = h2 % 32 then
        if h1 = h2 then
          .bitmap (2 ^ (h1 % 32)) [.sub (.cnode f1 [.kv k1 v1, .kv k2 v2])]
        else
          .bitmap (2 ^ (h1 % 32))
            [.sub (mergePair (h1 / 32) f1 k1 v1 (h2 / 32) f2 k2 v2)]
      else
        if h1 % 32 < h2 % 32 then
          .bitmap (2 ^ (h1 % 32) + 2 ^ (h2 % 32)) [.kv k1 v1, .kv k2 v2]
        else
          .bitmap (2 ^ (h1 % 32) + 2 ^ (h2 % 32)) [.kv k2 v2, .kv k1 v1]) := by
  rw [mergePair]

theorem wrapC_eq (hn : Nat) (cn : HNode) (h f k v : Nat) :
    wrapC hn cn h f k v =
      (if hn % 32 = h % 32 then
        if hn = h then
          .bitmap (2 ^ (hn % 32)) [.sub cn]
        else
          .bitmap (2 ^ (hn % 32)) [.sub (wrapC (hn / 32) cn (h / 32) f k v)]
      else
        if h % 32 < hn % 32 then
          .bitmap (2 ^ (hn % 32) + 2 ^ (h % 32)) [.kv k v, .sub cn]
        else
          .bitmap (2 ^ (hn % 32) + 2 ^ (h % 32)) [.sub cn, .kv k v]) := by
  rw [wrapC]

theorem eget_nil (i : Nat) : eget [] i = .nilE := by
  simp [eget, List.getD]

theorem eget_ge {arr : List HEntry} {i : Nat} (h : arr.length ≤ i) :
    eget arr i = .nilE := by
  simp [eget, List.getD, List.getElem?_eq_none h]

theorem eget_set_self (arr : List HEntry) (i : Nat) (e : HEntry)
    (h : i < arr.length) : eget (arr.set i e) i = e := by
  simp [eget, List.getD, List.getElem?_set_self, h]

theorem eget_set_ne (arr : List HEntry) (i j : Nat) (e : HEntry)
    (h : i ≠ j) : eget (arr.set i e) j = eget arr j := by
  simp [eget, List.getD, List.getElem?_set_ne h]

theorem oget_set_self (arr : List (Option HNode)) (i : Nat) (e : Option HNode)
    (h : i < arr.length) : oget (arr.set i e) i = e := by
  simp [oget, List.getD, List.getElem?_set_self, h]

theorem oget_set_ne (arr : List (Option HNode)) (i j : Nat) (e : Option HNode)
    (h : i ≠ j) : oget (arr.set i e) j = oget arr j := by
  simp [oget, List.getD, List.getElem?_set_ne h]

theorem einsert_length_le (arr : List HEntry) (i : Nat) (e : HEntry)
    (h : i ≤ arr.length) : (einsert arr i e).length = arr.length + 1 := by
  induction arr generalizing i with
  | nil =>
    match i with
    | 0 => simp [einsert]
  | cons a arr ih =>
    match i with
    | 0 => simp [einsert]
    | i + 1 =>
      simp only [einsert, List.length_cons]
      rw [ih i (by simpa using h)]

theorem eget_einsert_self (arr : List HEntry) (i : Nat) (e : HEntry)
    (h : i ≤ arr.length) : eget (einsert arr i e) i = e := by
  induction arr generalizing i with
  | nil =>
    match i with
    | 0 => simp [einsert, eget, List.getD]
  | cons a arr ih =>
    match i with
    | 0 => simp [einsert, eget, List.getD]
    | i + 1 =>
      simp only [einsert]
      simpa [eget, List.getD] using ih i (by simpa using h)

theorem eget_einsert_lt (arr : List HEntry) (i j : Nat) (e : HEntry)
    (h : j < i) (hle : i ≤ arr.length) : eget (einsert arr i e) j = eget arr j := by
  induction arr generalizing i j with
  | nil => exact absurd h (by simp at hle; omega)
  | cons a arr ih =>
    match i, h with
    | i + 1, _ =>
      match j with
      | 0 => simp [einsert, eget, List.getD]
      | j + 1 =>
        simp only [einsert]
        simpa [eget, List.getD] using ih i j (by omega) (by simpa using hle)

theorem eget_einsert_ge (arr : List HEntry) (i j : Nat) (e : HEntry)
    (h : i ≤ j) : eget (einsert arr i e) (j + 1) = eget arr j := by
  induction arr generalizing i j with
  | nil =>
    match i with
    | 0 =>
      match j with
      | 0 => simp [einsert, eget, List.getD]
      | j + 1 => simp [einsert, eget, List.getD]
    | i + 1 =>
      match j with
      | j + 1 => simp [einsert, eget, List.getD]
      | 0 => omega
  | cons a arr ih =>
    match i with
    | 0 => simp [einsert, eget, List.getD]
    | i + 1 =>
      match j with
      | 0 => omega
      | j + 1 =>
        simp only [einsert]
        simpa [eget, List.getD] using ih i j (by omega)

theorem eremoveZ_length (arr : List HEntry) (i : Nat) (h : i < arr.length) :
    (eremoveZ arr i).length = arr.length := by
  induction arr generalizing i with
  | nil => simp at h
  | cons a arr ih =>
    match i with
    | 0 => simp [eremoveZ]
    | i + 1 =>
      simp only [eremoveZ, List.length_cons]
      rw [ih i (by simpa using h)]

theorem eget_eremoveZ_lt (arr : List HEntry) (i j : Nat) (h : j < i) :
    eget (eremoveZ arr i) j = eget arr j := by
  induction arr generalizing i j with
  | nil => simp [eremoveZ]
  | cons a arr ih =>
    match i, h with
    | i + 1, _ =>
      match j with
      | 0 => simp [eremoveZ, eget, List.getD]
      | j + 1 =>
        simp only [eremoveZ]
        simpa [eget, List.getD] using ih i j (by omega)

theorem eget_eremoveZ_ge (arr : List HEntry) (i j : Nat) (hij : i ≤ j)
    (hj : j + 1 < arr.length) : eget (eremoveZ arr i) j = eget arr (j + 1) := by
  induction arr generalizing i j with
  | nil => simp at hj
  | cons a arr ih =>
    match i with
    | 0 =>
      simp only [eremoveZ]
      rw [show eget (a :: arr) (j + 1) = eget arr j from by simp [eget, List.getD]]
      have hjl : j < arr.length := by simpa using hj
      simp [eget, List.getD, List.getElem?_append, hjl]
    | i + 1 =>
      match j with
      | 0 => omega
      | j + 1 =>
        simp only [eremoveZ]
        rw [show eget (a :: eremoveZ arr i) (j + 1) = eget (eremoveZ arr i) j from by
          simp [eget, List.getD]]
        rw [show eget (a :: arr) (j + 1 + 1) = eget arr (j + 1) from by
          simp [eget, List.getD]]
        exact ih i j (by omega) (by simpa using hj)

theorem eremove_length (arr : List HEntry) (i : Nat) (h : i < arr.length) :
    (eremove arr i).length = arr.length - 1 := by
  induction arr generalizing i with
  | nil => simp at h
  | cons a arr ih =>
    match i with
    | 0 => simp [eremove]
    | i + 1 =>
      simp only [eremove, List.length_cons]
      rw [ih i (by simpa using h)]
      have : 1 ≤ arr.length := by
        have := h
        simp at this
        omega
      omega

theorem eget_eremove_lt (arr : List HEntry) (i j : Nat) (h : j < i) :
    eget (eremove arr i) j = eget arr j := by
  induction arr generalizing i j with
  | nil => simp [eremove]
  | cons a arr ih =>
    match i, h with
    | i + 1, _ =>
      match j with
      | 0 => simp [eremove, eget, List.getD]
      | j + 1 =>
        simp only [eremove]
        simpa [eget, List.getD] using ih i j (by omega)

theorem eget_eremove_ge (arr : List HEntry) (i j : Nat) (hij : i ≤ j) :
    eget (eremove arr i) j = eget arr (j + 1) := by
  induction arr generalizing i j with
  | nil => simp [eremove, eget, List.getD]
  | cons a arr ih =>
    match i with
    | 0 => simp [eremove, eget, List.getD]
    | i + 1 =>
      match j with
      | 0 => omega
      | j + 1 =>
        simp only [eremove]
        rw [show eget (a :: eremove arr i) (j + 1) = eget (eremove arr i) j from by
          simp [eget, List.getD]]
        rw [show eget (a :: arr) (j + 1 + 1) = eget arr (j + 1) from by
          simp [eget, List.getD]]
        exact ih i j (by omega)

end HM
